import Mathlib

/-!
# TimeSeries: cleaning and resampling pipeline

A shallow embedding of the Go package `timeseries` (files `timeseries.go` and
`tsContainers.go`) and theorems about it.

Modelling decisions.

* `float64` values are exact rationals (`ℚ`); the constant `Nihil` is `0`.
* A `time.Time` is an integer number of nanoseconds since Go's zero time, so
  `Truncate` rounds down to a multiple of the step; a `time.Duration` is an
  `int64` number of nanoseconds (products wrap, `Sub` saturates).
* A Go slice is a header (backing array, offset, length, capacity) into a heap
  of arrays: a struct copy shares the backing array, `append` writes in place
  while the capacity allows and moves to a fresh array otherwise, a slice
  expression may reach up to the capacity.
* Library code (`sort.Slice`, the growth of `append`, the gonum statistics and
  string formatting) is a parameter `Env` of the embedding; `Env.Lawful` is its
  documented contract and `goEnv` the instance used on concrete inputs.
* General theorems are stated for the well-formed states `World.wf`, which
  every operation keeps (`run_wf`): each slice lies within its array, and only
  Original and Cleaned may share an array.
* A run ends with a `Status`: `ok`, `panic` (index or slice bound out of
  range) or `loops` (fuel exhausted), together with the state reached.
* Printing is left out.
-/

namespace Timeseries

/-! ## Data model -/

/-- The sentinel constant `Nihil=0.0`. -/
def Nihil : ℚ := 0

/-- The struct `DataUnit`. -/
structure DataUnit where
  Chron : Int
  Dchron : Int
  Meas : ℚ
  Dmeas : ℚ
  Origin : String
deriving DecidableEq

/-- Go's zero value of `DataUnit`, the content of freshly allocated array cells. -/
def DataUnit.zero : DataUnit := ⟨0, 0, 0, 0, ""⟩

/-- A slice header: backing array, offset of the first element in it, length and capacity. -/
structure Slice where
  ptr : Nat
  off : Nat
  len : Nat
  cap : Nat
deriving DecidableEq

/-- The struct `SummaryStat`; the fields `Chmean`, `Chstd` and `Msstd`, which exist only as
floating-point square roots and conversions, are left out. -/
structure SummaryStat where
  Dslen : Nat
  Chmin : Int
  Chmax : Int
  Msmin : ℚ
  Msmax : ℚ
  Msmean : ℚ
deriving DecidableEq

/-- The struct `TimeSeries`. -/
structure TimeSeries where
  DataSeries : Slice
  Descr : String
  SumStat : SummaryStat
deriving DecidableEq

/-- The struct `TsContainer`. -/
structure TsContainer where
  Original : TimeSeries
  Cleaned : TimeSeries
  Resampled : TimeSeries
  Rejected : TimeSeries
deriving DecidableEq

/-- The arrays behind the slices: `arr p` is the array with identifier `p`, identifiers from
`next` on are unused. -/
structure Heap where
  arr : Nat → List DataUnit
  next : Nat

/-- A program state: the heap and one container. -/
structure World where
  heap : Heap
  tsc : TsContainer

/-- How a run ends. -/
inductive Status where
  | ok
  | panic
  | loops
deriving DecidableEq

/-- A run's status and the state it reached. -/
structure Outcome where
  status : Status
  world : World

/-! ## Slices over the heap -/

/-- The elements a slice shows. -/
def Slice.view (h : Heap) (s : Slice) : List DataUnit :=
  ((h.arr s.ptr).drop s.off).take s.len

/-- The element `s[i]`, for an index in range. -/
def Slice.get (h : Heap) (s : Slice) (i : Nat) : DataUnit :=
  (h.arr s.ptr).getD (s.off + i) DataUnit.zero

/-- Write `s[i] = x` in the backing array, for an index in range. -/
def Slice.store (h : Heap) (s : Slice) (i : Nat) (x : DataUnit) : Heap :=
  { h with arr := Function.update h.arr s.ptr ((h.arr s.ptr).set (s.off + i) x) }

/-- The index expression `s[i]` as a read: `none` when `i` is out of range, where Go
panics. -/
def Slice.index (h : Heap) (s : Slice) (i : Int) : Option DataUnit :=
  if 0 ≤ i ∧ i < s.len then some (s.get h i.toNat) else none

/-- The index expression `s[i]` as the target of an assignment to one field, `f` being the
change of the element: `none` when `i` is out of range. -/
def Slice.modify (h : Heap) (s : Slice) (i : Int) (f : DataUnit → DataUnit) : Option Heap :=
  if 0 ≤ i ∧ i < s.len then some (s.store h i.toNat (f (s.get h i.toNat))) else none

/-- Overwrite the visible elements of `s` by `xs` (of the same length), as an in-place sort
does. -/
def Slice.storeAll (h : Heap) (s : Slice) (xs : List DataUnit) : Heap :=
  let a := h.arr s.ptr
  { h with arr := Function.update h.arr s.ptr (a.take s.off ++ xs ++ a.drop (s.off + s.len)) }

/-- The views of the four slots. -/
def World.original (w : World) : List DataUnit := w.tsc.Original.DataSeries.view w.heap
def World.cleaned (w : World) : List DataUnit := w.tsc.Cleaned.DataSeries.view w.heap
def World.resampled (w : World) : List DataUnit := w.tsc.Resampled.DataSeries.view w.heap
def World.rejected (w : World) : List DataUnit := w.tsc.Rejected.DataSeries.view w.heap

/-! ## Library code -/

/-- The library functions the package calls.  `sort lt l` is `sort.Slice` with comparison
`lt`, `grow c` is the capacity `append` gives the new array when a slice of capacity `c` is
full, `quantile p x` is `stat.Quantile(p,1,x,nil)` (`none` when it panics), `mean` and
`stdDev` are `stat.Mean` and `stat.StdDev`, `fmt2` is `fmt.Sprintf("%.2f",_)`. -/
structure Env where
  sort : (DataUnit → DataUnit → Bool) → List DataUnit → List DataUnit
  grow : Nat → Nat
  quantile : ℚ → List ℚ → Option ℚ
  mean : List ℚ → ℚ
  stdDev : List ℚ → ℚ
  fmt2 : ℚ → String

/-- The documented contract of the library: `sort.Slice` returns a permutation in which no
element is less than an earlier one (for a comparison that is a strict weak order; it need
not be stable), and `append` on a full slice enlarges the capacity. -/
structure Env.Lawful (E : Env) : Prop where
  sort_perm : ∀ lt l, (E.sort lt l).Perm l
  sort_sorted : ∀ lt l, (∀ a b, lt a b = true → lt b a = false) →
    (∀ a b c, lt a b = false → lt b c = false → lt a c = false) →
    (E.sort lt l).Pairwise (fun a b => lt b a = false)
  grow_gt : ∀ c, c < E.grow c

/-! ## Time and durations -/

/-- Reduce an integer to the `int64` it is stored as. -/
def wrap64 (x : Int) : Int := (x + 9223372036854775808) % 18446744073709551616 - 9223372036854775808

/-- Saturate an integer to the `int64` range. -/
def clamp64 (x : Int) : Int := max (-9223372036854775808) (min x 9223372036854775807)

/-- The method `t.Sub(u)` of `time.Time`: the difference, saturated to a `Duration`. -/
def timeSub (t u : Int) : Int := clamp64 (t - u)

/-- The method `t.Add(d)` of `time.Time`. -/
def timeAdd (t d : Int) : Int := t + d

/-- The method `t.Truncate(d)` of `time.Time`: `t` itself when `d <= 0`. -/
def timeTruncate (t d : Int) : Int := if d ≤ 0 then t else t - t % d

/-! ## Methods of `TimeSeries` -/

/-- The built-in `append(s, x)`. -/
def Slice.append (E : Env) (h : Heap) (s : Slice) (x : DataUnit) : Heap × Slice :=
  if s.len < s.cap then
    (s.store h s.len x, { s with len := s.len + 1 })
  else
    let c := E.grow s.cap
    let a := s.view h ++ x :: List.replicate (c - (s.len + 1)) DataUnit.zero
    ({ arr := Function.update h.arr h.next a, next := h.next + 1 },
     { ptr := h.next, off := 0, len := s.len + 1, cap := c })

/-- `AddDataUnit`: `ts.DataSeries = append(ts.DataSeries, du)`. -/
def AddDataUnit (E : Env) (h : Heap) (ts : TimeSeries) (du : DataUnit) : Heap × TimeSeries :=
  ((ts.DataSeries.append E h du).1, { ts with DataSeries := (ts.DataSeries.append E h du).2 })

/-- The comparison of `SortChronAsc`. -/
def chronLess (a b : DataUnit) : Bool := decide (a.Chron < b.Chron)

/-- The comparison of `SortChronDesc`. -/
def chronAfter (a b : DataUnit) : Bool := decide (b.Chron < a.Chron)

/-- The comparison of `SortMeasAsc`. -/
def measLess (a b : DataUnit) : Bool := decide (a.Meas < b.Meas)

/-- `SortChronAsc`: sorts the slice in place. -/
def SortChronAsc (E : Env) (h : Heap) (ts : TimeSeries) : Heap :=
  ts.DataSeries.storeAll h (E.sort chronLess (ts.DataSeries.view h))

/-- `SortChronDesc`. -/
def SortChronDesc (E : Env) (h : Heap) (ts : TimeSeries) : Heap :=
  ts.DataSeries.storeAll h (E.sort chronAfter (ts.DataSeries.view h))

/-- `SortMeasAsc`. -/
def SortMeasAsc (E : Env) (h : Heap) (ts : TimeSeries) : Heap :=
  ts.DataSeries.storeAll h (E.sort measLess (ts.DataSeries.view h))

/-- `Reset`: `ts.DataSeries=ts.DataSeries[0:0]`, the array and the capacity stay. -/
def Reset (ts : TimeSeries) : TimeSeries :=
  { ts with DataSeries := { ts.DataSeries with len := 0 } }

/-- `MeasToArr`. -/
def MeasToArr (h : Heap) (ts : TimeSeries) : List ℚ := (ts.DataSeries.view h).map (·.Meas)

/-- `ChronToArr`. -/
def ChronToArr (h : Heap) (ts : TimeSeries) : List Int := (ts.DataSeries.view h).map (·.Chron)

/-- `stats.Min` on a non-empty input. -/
def statsMin (ms : List ℚ) : ℚ := ms.foldl (fun m x => if x < m then x else m) (ms.headD 0)

/-- `stats.Max` on a non-empty input. -/
def statsMax (ms : List ℚ) : ℚ := ms.foldl (fun m x => if x > m then x else m) (ms.headD 0)

/-- `stats.Mean` on a non-empty input. -/
def statsMean (ms : List ℚ) : ℚ := ms.sum / ms.length

/-- `ComputeSummaryStat`: `Dslen` is assigned first; the loop `for i:=1;i< Dslen;i++` reads
`DataSeries[i]` (its sums are left out, its index checks are kept); then `DataSeries[0]` and
`DataSeries[Dslen-1]` are read. -/
def ComputeSummaryStat (h : Heap) (ts : TimeSeries) : Status × TimeSeries :=
  let s := ts.DataSeries
  let ts1 : TimeSeries := { ts with SumStat := { ts.SumStat with Dslen := s.len } }
  if (List.range' 1 (s.len - 1)).all (fun i => (s.index h i).isSome) = true then
    match s.index h 0 with
    | none => (Status.panic, ts1)
    | some a =>
      match s.index h ((s.len : Int) - 1) with
      | none => (Status.panic, { ts1 with SumStat := { ts1.SumStat with Chmin := a.Chron } })
      | some b =>
        let ms := MeasToArr h ts
        (Status.ok, { ts with SumStat :=
          { Dslen := s.len, Chmin := a.Chron, Chmax := b.Chron,
            Msmin := statsMin ms, Msmax := statsMax ms, Msmean := statsMean ms } })
  else (Status.panic, ts1)

/-- The heap after one pass of the loop of `Complete` whose indices are in range. -/
def completeStep (s : Slice) (h : Heap) (i : Nat) : Heap :=
  let h1 := s.store h i { s.get h i with Dchron := timeSub (s.get h i).Chron (s.get h (i - 1)).Chron }
  s.store h1 i { s.get h1 i with Dmeas := (s.get h1 i).Meas - (s.get h1 (i - 1)).Meas }

/-- One pass of the loop of `Complete`, for index `i`: the two assignments
`DataSeries[i].Dchron= DataSeries[i].Chron.Sub(DataSeries[i-1].Chron)` and
`DataSeries[i].Dmeas= DataSeries[i].Meas- DataSeries[i-1].Meas`; `none` when an index is out
of range. -/
def completePass (s : Slice) (h : Heap) (i : Int) : Option Heap :=
  match s.index h i, s.index h (i - 1) with
  | some a, some b =>
    match s.modify h i (fun d => { d with Dchron := timeSub a.Chron b.Chron }) with
    | none => none
    | some h1 =>
      match s.index h1 i, s.index h1 (i - 1) with
      | some c, some d => s.modify h1 i (fun e => { e with Dmeas := c.Meas - d.Meas })
      | _, _ => none
  | _, _ => none

/-- The loop of `Complete` over the given indices: it stops at the first panic. -/
def completeRun (s : Slice) : List Nat → Heap → Status × Heap
  | [], h => (Status.ok, h)
  | i :: is, h =>
    match completePass s h i with
    | none => (Status.panic, h)
    | some h1 => completeRun s is h1

/-- `Complete`: sort, zero the deltas of `DataSeries[0]`, then
`for i:=1;i<len(ts.DataSeries)-1;i++`, then `ComputeSummaryStat`; an index out of range
ends the run with a panic. -/
def Complete (E : Env) (h : Heap) (ts : TimeSeries) : Status × Heap × TimeSeries :=
  let h1 := SortChronAsc E h ts
  let s := ts.DataSeries
  match s.modify h1 0 (fun d => { d with Dchron := 0 }) with
  | none => (Status.panic, h1, ts)
  | some h2 =>
    match s.modify h2 0 (fun d => { d with Dmeas := 0 }) with
    | none => (Status.panic, h2, ts)
    | some h3 =>
      let r := completeRun s (List.range' 1 (s.len - 2)) h3
      if r.1 = Status.ok then ((ComputeSummaryStat r.2 ts).1, r.2, (ComputeSummaryStat r.2 ts).2)
      else (r.1, r.2, ts)

/-! ## Trimming -/

/-- The state of the two scans of `SliceCleaned`: the heap, the Rejected series and the
counter. -/
structure Trim where
  heap : Heap
  rej : TimeSeries
  count : Nat

/-- The body of both scans: `tsc.Rejected.AddDataUnit(tsc.Cleaned.DataSeries[i])`, then
`tsc.Rejected.DataSeries[len(tsc.Rejected.DataSeries)-1].Origin=cause`, and the counter. -/
def rejectUnit (E : Env) (cause : String) (cl : Slice) (i : Nat) (t : Trim) : Trim :=
  let a := AddDataUnit E t.heap t.rej (cl.get t.heap i)
  let r := a.2.DataSeries
  { heap := r.store a.1 (r.len - 1) { r.get a.1 (r.len - 1) with Origin := cause },
    rej := a.2,
    count := t.count + 1 }

/-- The scan `for i:=0;i<len-1 && DataSeries[i].Meas<min;i++`; the first argument is the
number of indices left below `len-1`. -/
def lowLoop (E : Env) (cause : String) (cl : Slice) (min : ℚ) : Nat → Nat → Trim → Trim
  | 0, _, t => t
  | k + 1, i, t =>
    if (cl.get t.heap i).Meas < min then lowLoop E cause cl min k (i + 1) (rejectUnit E cause cl i t)
    else t

/-- The scan `for i:=len-1;i>=0 && DataSeries[i].Meas>max;i--`; the argument is `i+1`. -/
def highLoop (E : Env) (cause : String) (cl : Slice) (max : ℚ) : Nat → Trim → Trim
  | 0, t => t
  | i + 1, t =>
    if (cl.get t.heap i).Meas > max then highLoop E cause cl max i (rejectUnit E cause cl i t)
    else t

/-- The state after the two scans of `SliceCleaned`. -/
def sliceScans (E : Env) (min max : ℚ) (cause : String) (w : World) : Trim × Trim :=
  let cl := w.tsc.Cleaned.DataSeries
  let h0 := SortMeasAsc E w.heap w.tsc.Cleaned
  let lo := lowLoop E cause cl min (cl.len - 1) 0 ⟨h0, w.tsc.Rejected, 0⟩
  (lo, highLoop E cause cl max cl.len ⟨lo.heap, lo.rej, 0⟩)

/-- `SliceCleaned`.  After the scans, `counthigh= len-counthigh` and the slice expression
`DataSeries[countlow:counthigh+1]`, which panics unless
`countlow <= counthigh+1 <= cap`; then `Complete`. -/
def SliceCleaned (E : Env) (min max : ℚ) (cause : String) (w : World) : Outcome :=
  let cl := w.tsc.Cleaned
  let sc := sliceScans E min max cause w
  let countlow := sc.1.count
  let counthigh := cl.DataSeries.len - sc.2.count
  if countlow ≤ counthigh + 1 ∧ counthigh + 1 ≤ cl.DataSeries.cap then
    let cl1 : TimeSeries := { cl with DataSeries :=
      { ptr := cl.DataSeries.ptr, off := cl.DataSeries.off + countlow,
        len := counthigh + 1 - countlow, cap := cl.DataSeries.cap - countlow } }
    let r := Complete E sc.2.heap cl1
    ⟨r.1, ⟨r.2.1, { w.tsc with Cleaned := r.2.2, Rejected := sc.2.rej }⟩⟩
  else
    ⟨Status.panic, ⟨sc.2.heap, { w.tsc with Rejected := sc.2.rej }⟩⟩

/-- `DeviceLimitsCleaning`; `now` is the text of `time.Now().String()`. -/
def DeviceLimitsCleaning (E : Env) (now : String) (min max : ℚ) (w : World) : Outcome :=
  SliceCleaned E min max ("DeviceLimit (" ++ E.fmt2 min ++ "," ++ E.fmt2 max ++ ") - " ++ now) w

/-- `ResetCleanedSeries`: both resets, then the struct copy `tsc.Cleaned=tsc.Original`, which
copies the slice header and so shares the backing array. -/
def ResetCleanedSeries (w : World) : World :=
  let t1 := { w.tsc with Resampled := Reset w.tsc.Resampled }
  let t2 := { t1 with Cleaned := Reset t1.Cleaned }
  { w with tsc := { t2 with Cleaned := t2.Original } }

/-- `PercCleaning`: a sort by value, the two quantiles (a panic of `stat.Quantile` ends the
run), then `SliceCleaned`. -/
def PercCleaning (E : Env) (now : String) (perc : ℚ) (w : World) : Outcome :=
  let h1 := SortMeasAsc E w.heap w.tsc.Cleaned
  let w1 : World := { w with heap := h1 }
  let dt := MeasToArr h1 w.tsc.Cleaned
  match E.quantile perc dt, E.quantile (1 - perc) dt with
  | some min, some max =>
    SliceCleaned E min max ("Percentile (" ++ E.fmt2 min ++ "," ++ E.fmt2 max ++ ") - " ++ now) w1
  | _, _ => ⟨Status.panic, w1⟩

/-- `ZscoreCleaning`. -/
def ZscoreCleaning (E : Env) (now : String) (lvl : ℚ) (w : World) : Outcome :=
  let h1 := SortMeasAsc E w.heap w.tsc.Cleaned
  let w1 : World := { w with heap := h1 }
  let dt := MeasToArr h1 w.tsc.Cleaned
  let dtmean := E.mean dt
  let dtstd := E.stdDev dt
  let min := (dtmean - dtstd) * lvl
  let max := (dtmean + dtstd) * lvl
  SliceCleaned E min max
    ("zScore at " ++ E.fmt2 lvl ++ "(" ++ E.fmt2 min ++ "," ++ E.fmt2 max ++ ") - " ++ now) w1

/-! ## Frequency strings

A Go string is a sequence of bytes; here it is a `String` whose characters stand for the
bytes (for an ASCII string, its characters). -/

/-- The value of a run of decimal digits, `none` when a byte is not a digit. -/
def parseDigits : List Char → Nat → Option Nat
  | [], n => some n
  | c :: cs, n => if '0' ≤ c ∧ c ≤ '9' then parseDigits cs (10 * n + (c.toNat - 48)) else none

/-- The library function `strconv.Atoi` with its error dropped (`freq, _ := strconv.Atoi(..)`):
an optional sign and at least one digit give the number, saturated to `int64`; anything else
gives `0`. -/
def Atoi (s : List Char) : Int :=
  match s with
  | [] => 0
  | c :: cs =>
    if c = '-' then
      if cs = [] then 0 else (parseDigits cs 0).elim 0 (fun n => clamp64 (-(n : Int)))
    else if c = '+' then
      if cs = [] then 0 else (parseDigits cs 0).elim 0 (fun n => clamp64 (n : Int))
    else (parseDigits (c :: cs) 0).elim 0 (fun n => clamp64 (n : Int))

/-- `InterpretDurationParam`: the number before the last byte and the last byte; on the empty
string the slice expression `freqq[0 : len(freqq)-1]` panics (`none`). -/
def InterpretDurationParam (freqq : String) : Option (Int × Char) :=
  match freqq.data.getLast? with
  | none => none
  | some u => some (Atoi freqq.data.dropLast, u)

/-- `time.Second`, `time.Minute` and `time.Hour` in nanoseconds. -/
def second : Int := 1000000000
def minute : Int := 60000000000
def hour : Int := 3600000000000

/-- `AddDurationParam`: the product `time.Second * time.Duration(freq)` wraps in `int64`. -/
def AddDurationParam (start : Int) (freqq : String) : Option Int :=
  match InterpretDurationParam freqq with
  | none => none
  | some (freq, timeunit) =>
    if timeunit = 's' then some (timeAdd start (wrap64 (second * freq)))
    else if timeunit = 'm' then some (timeAdd start (wrap64 (minute * freq)))
    else if timeunit = 'h' then some (timeAdd start (wrap64 (hour * freq)))
    else some start

/-- `roundedStartTime`; for `d`, `AddDate(0, 0, -ff)` is taken in UTC, where a day is 86400
seconds. -/
def roundedStartTime (timetoround : Int) (afreqq : String) : Option Int :=
  match afreqq.data.getLast? with
  | none => none
  | some per =>
    let ff := Atoi afreqq.data.dropLast
    if per = 'm' then some (timeTruncate timetoround (wrap64 (minute * ff)))
    else if per = 's' then some (timeTruncate timetoround (wrap64 (second * ff)))
    else if per = 'h' then some (timeTruncate timetoround (wrap64 (hour * ff)))
    else if per = 'd' then some (timetoround + wrap64 (-ff) * (24 * hour))
    else some timetoround

/-! ## Statistics helpers -/

/-- `Mean`: the running update `m += (x - m) / float64(i+1)`. -/
def Mean (xs : List ℚ) : ℚ :=
  if xs.length = 0 then Nihil
  else (xs.foldl (fun (p : ℚ × Nat) x => (p.1 + (x - p.1) / ((p.2 : ℚ) + 1), p.2 + 1)) (0, 0)).1

/-- `Bounds`. -/
def Bounds (xs : List ℚ) : ℚ × ℚ :=
  match xs with
  | [] => (0, 0)
  | x0 :: _ =>
    xs.foldl (fun (p : ℚ × ℚ) x => (if x < p.1 then x else p.1, if x > p.2 then x else p.2)) (x0, x0)

/-- `Tmean`: `none` is the error `Population is empty`, otherwise the mean and the count. -/
def Tmean (obs : List ℚ) : Option (ℚ × ℚ) :=
  let r := obs.foldl (fun (p : ℚ × ℚ) value =>
    (p.1 + value, if value ≠ Nihil then p.2 + 1 else p.2)) (0, 0)
  if r.2 = 0 then none else some (r.1 / r.2, r.2)

/-! ## Downsampling -/

/-- The state of the loops of `Downsampling`: the heap, the Resampled series and the bucket
edge `mainant`. -/
structure Resamp where
  status : Status
  heap : Heap
  res : TimeSeries
  mainant : Int

/-- The scan `for DataSeries[i].Chron.Before(mainant) && i < len-1`, which fills `vec` and
writes nowhere; `rd i` reads `DataSeries[i]`, the first numeric argument is the number of
indices left below `len-1`.  The result is the new `i` and `vec`. -/
def collect (rd : Nat → DataUnit) (mainant : Int) : Nat → Nat → List ℚ → Nat × List ℚ
  | 0, i, vec => (i, vec)
  | k + 1, i, vec =>
    if (rd i).Chron < mainant then collect rd mainant k (i + 1) (vec ++ [(rd i).Meas])
    else (i, vec)

/-- The sample emitted for a bucket: the `switch stat` on a non-empty `vec`, `Nihil` on an
empty one. -/
def bucketUnit (stat : String) (mainant : Int) (vec : List ℚ) : DataUnit :=
  let meas : ℚ :=
    if vec.length ≠ 0 then
      if stat = "avg" then Mean vec
      else if stat = "max" then (Bounds vec).2
      else if stat = "min" then (Bounds vec).1
      else if stat = "last" then vec.getD (vec.length - 1) 0
      else Nihil
    else Nihil
  { DataUnit.zero with Chron := mainant, Meas := meas }

/-- The sample of an empty bucket: `DataUnit{Chron:mainant, Meas:Nihil}`. -/
def gapUnit (mainant : Int) : DataUnit := { DataUnit.zero with Chron := mainant, Meas := Nihil }

/-- The gap scan `for (i< len-2)&& mainant.Before(DataSeries[i+1].Chron)==true`, which emits
`Nihil` samples; the first argument is the fuel. -/
def gapLoop (E : Env) (freqq : String) (cl : Slice) (i : Nat) : Nat → Resamp → Resamp
  | 0, st =>
    if i + 2 < cl.len ∧ st.mainant < (cl.get st.heap (i + 1)).Chron then
      { st with status := Status.loops }
    else st
  | f + 1, st =>
    if i + 2 < cl.len ∧ st.mainant < (cl.get st.heap (i + 1)).Chron then
      let a := AddDataUnit E st.heap st.res (gapUnit st.mainant)
      match AddDurationParam st.mainant freqq with
      | none => ⟨Status.panic, a.1, a.2, st.mainant⟩
      | some m => gapLoop E freqq cl i f ⟨Status.ok, a.1, a.2, m⟩
    else st

/-- The main loop `for i := 0; i < len-1;` of `Downsampling`; the first argument is the
fuel. -/
def mainLoop (E : Env) (freqq stat : String) (cl : Slice) : Nat → Nat → Resamp → Resamp
  | 0, i, st => if i + 1 < cl.len then { st with status := Status.loops } else st
  | f + 1, i, st =>
    if i + 1 < cl.len then
      let c := collect (cl.get st.heap) st.mainant (cl.len - 1 - i) i []
      let a := AddDataUnit E st.heap st.res (bucketUnit stat st.mainant c.2)
      match AddDurationParam st.mainant freqq with
      | none => ⟨Status.panic, a.1, a.2, st.mainant⟩
      | some m =>
        let g := gapLoop E freqq cl c.1 f ⟨Status.ok, a.1, a.2, m⟩
        if g.status = Status.ok then mainLoop E freqq stat cl f (c.1 + 1) g else g
    else st

/-- `Downsampling`, with fuel for its loops. -/
def Downsampling (E : Env) (fuel : Nat) (freqq stat : String) (w : World) : Outcome :=
  let res0 := Reset w.tsc.Resampled
  let h1 := SortChronAsc E w.heap w.tsc.Cleaned
  let cl := w.tsc.Cleaned.DataSeries
  let w1 : World := ⟨h1, { w.tsc with Resampled := res0 }⟩
  match InterpretDurationParam freqq with
  | none => ⟨Status.panic, w1⟩
  | some _ =>
    if cl.len = 0 then ⟨Status.panic, w1⟩
    else
      match (roundedStartTime (cl.get h1 0).Chron freqq).bind (AddDurationParam · freqq) with
      | none => ⟨Status.panic, w1⟩
      | some m0 =>
        let st := mainLoop E freqq stat cl fuel 0 ⟨Status.ok, h1, res0, m0⟩
        ⟨st.status, ⟨st.heap, { w.tsc with Resampled := st.res }⟩⟩

/-! ## The environment used on concrete inputs -/

/-- One pass of the inner loop of the insertion sort of package `sort`, on the reversed
sorted part: `x` moves left while it is less than its left neighbour. -/
def insertBack (lt : DataUnit → DataUnit → Bool) (x : DataUnit) : List DataUnit → List DataUnit
  | [] => [x]
  | y :: ys => if lt x y then y :: insertBack lt x ys else x :: y :: ys

/-- The insertion sort that `sort.Slice` runs on a slice of at most 12 elements. -/
def goSort (lt : DataUnit → DataUnit → Bool) (l : List DataUnit) : List DataUnit :=
  (l.foldl (fun acc x => insertBack lt x acc) []).reverse

/-- The empirical quantile `stat.Quantile(p,1,x,nil)`: the first `x[i]` with `i+1 >= p*len`;
it panics when `p` is outside `[0,1]`, on an empty `x` and on an unsorted `x`. -/
def goQuantile (p : ℚ) (x : List ℚ) : Option ℚ :=
  if 0 ≤ p ∧ p ≤ 1 ∧ x ≠ [] ∧ x.Pairwise (· ≤ ·) then
    (x.enum.find? (fun q => decide (p * (x.length : ℚ) ≤ (q.1 : ℚ) + 1))).map (·.2)
  else none

/-- The formatting `%.2f`, to the nearest hundredth. -/
def goFmt2 (q : ℚ) : String :=
  let n := (round (q * 100)).natAbs
  (if q < 0 then "-" else "") ++ toString (n / 100) ++ "." ++ toString (n % 100 / 10) ++
    toString (n % 10)

/-- The environment used on concrete inputs: Go's insertion sort (what `sort.Slice` runs on up
to 12 elements), the doubling of `append` (its growth for capacities below 256), the
empirical quantile and the mean of gonum.  The standard deviation has no exact rational
value: `stdDev` is the square root of the integer part of the unbiased variance, rounded
down; no run below depends on it. -/
def goEnv : Env where
  sort := goSort
  grow := fun c => if c = 0 then 1 else 2 * c
  quantile := goQuantile
  mean := fun x => x.sum / x.length
  stdDev := fun x =>
    let m := x.sum / x.length
    (Nat.sqrt ((x.map (fun v => (v - m) ^ 2)).sum / ((x.length : ℚ) - 1)).floor.toNat : ℚ)
  fmt2 := goFmt2

/-- A sample with the given timestamp and value and zero deltas. -/
def mkUnit (t : Int) (v : ℚ) : DataUnit := { DataUnit.zero with Chron := t, Meas := v }

/-- A series with the given slice, no description and a zero summary. -/
def mkSeries (s : Slice) : TimeSeries := ⟨s, "", ⟨0, 0, 0, 0, 0, 0⟩⟩

/-- A state with four separate arrays, numbered 0 to 3, that hold the Original, Cleaned,
Resampled and Rejected samples; each slice has its list's length as length and capacity. -/
def mkWorld (orig cl res rej : List DataUnit) : World :=
  { heap := { arr := fun p => if p = 0 then orig else if p = 1 then cl else if p = 2 then res
                else if p = 3 then rej else [],
              next := 4 },
    tsc := { Original := mkSeries ⟨0, 0, orig.length, orig.length⟩,
             Cleaned := mkSeries ⟨1, 0, cl.length, cl.length⟩,
             Resampled := mkSeries ⟨2, 0, res.length, res.length⟩,
             Rejected := mkSeries ⟨3, 0, rej.length, rej.length⟩ } }

/-- An instant used in the examples: 2023-11-14 22:13:20 UTC, in nanoseconds since the zero
time; it is a multiple of five seconds. -/
def t0 : Int := 63835596800000000000

/-! ## Operations of the container -/

/-- The operations of a container. -/
inductive Op where
  | ResetCleanedSeries
  | DeviceLimitsCleaning (now : String) (min max : ℚ)
  | PercCleaning (now : String) (perc : ℚ)
  | ZscoreCleaning (now : String) (lvl : ℚ)
  | SliceCleaned (min max : ℚ) (cause : String)
  | Downsampling (fuel : Nat) (freqq stat : String)

/-- Run one operation. -/
def Op.run (E : Env) : Op → World → Outcome
  | Op.ResetCleanedSeries, w => ⟨Status.ok, Timeseries.ResetCleanedSeries w⟩
  | Op.DeviceLimitsCleaning now min max, w => Timeseries.DeviceLimitsCleaning E now min max w
  | Op.PercCleaning now perc, w => Timeseries.PercCleaning E now perc w
  | Op.ZscoreCleaning now lvl, w => Timeseries.ZscoreCleaning E now lvl w
  | Op.SliceCleaned min max cause, w => Timeseries.SliceCleaned E min max cause w
  | Op.Downsampling fuel freqq stat, w => Timeseries.Downsampling E fuel freqq stat w

/-! ## Well-formed states -/

/-- A slice lies within an allocated array. -/
def Slice.valid (h : Heap) (s : Slice) : Prop :=
  s.ptr < h.next ∧ s.len ≤ s.cap ∧ s.off + s.cap ≤ (h.arr s.ptr).length

instance (h : Heap) (s : Slice) : Decidable (s.valid h) := by
  unfold Slice.valid; infer_instance

/-- The states the package produces from separately built series: every slice lies within
its array, and the arrays of Rejected and of Resampled are shared with no other series
(Original and Cleaned may share theirs, as they do after `ResetCleanedSeries`). -/
def World.wf (w : World) : Prop :=
  w.tsc.Original.DataSeries.valid w.heap ∧ w.tsc.Cleaned.DataSeries.valid w.heap ∧
  w.tsc.Resampled.DataSeries.valid w.heap ∧ w.tsc.Rejected.DataSeries.valid w.heap ∧
  w.tsc.Rejected.DataSeries.ptr ≠ w.tsc.Original.DataSeries.ptr ∧
  w.tsc.Rejected.DataSeries.ptr ≠ w.tsc.Cleaned.DataSeries.ptr ∧
  w.tsc.Rejected.DataSeries.ptr ≠ w.tsc.Resampled.DataSeries.ptr ∧
  w.tsc.Resampled.DataSeries.ptr ≠ w.tsc.Original.DataSeries.ptr ∧
  w.tsc.Resampled.DataSeries.ptr ≠ w.tsc.Cleaned.DataSeries.ptr

instance (w : World) : Decidable w.wf := by
  unfold World.wf; infer_instance

/-- The slice `s` of heap `h` has become `s1` in `h1` by appending `added`: arrays other
than its own are untouched, and its array is its old one or a fresh one. -/
structure Grows (h : Heap) (s : Slice) (h1 : Heap) (s1 : Slice) (added : List DataUnit) :
    Prop where
  valid : s1.valid h1
  next_le : h.next ≤ h1.next
  frame : ∀ q, q < h.next → q ≠ s.ptr → h1.arr q = h.arr q
  ptr : s1.ptr = s.ptr ∨ h.next ≤ s1.ptr
  view : s1.view h1 = s.view h ++ added

/-- What the loops of `Downsampling` keep true: Resampled and Cleaned lie within their
arrays, which differ, and Cleaned shows `xs`. -/
structure ResInv (cl : Slice) (xs : List DataUnit) (h : Heap) (res : Slice) : Prop where
  valid_res : res.valid h
  valid_cl : cl.valid h
  ne : cl.ptr ≠ res.ptr
  view : cl.view h = xs

/-! ## The samples `Downsampling` emits, as a function of the sorted Cleaned samples -/

/-- The state of the loops of `Downsampling` without the heap: the samples emitted so far
and the bucket edge. -/
structure Emit where
  status : Status
  out : List DataUnit
  mainant : Int

/-- The gap scan on a list. -/
def gapEmit (freqq : String) (xs : List DataUnit) (i : Nat) : Nat → Emit → Emit
  | 0, st =>
    if i + 2 < xs.length ∧ st.mainant < (xs.getD (i + 1) DataUnit.zero).Chron then
      { st with status := Status.loops }
    else st
  | f + 1, st =>
    if i + 2 < xs.length ∧ st.mainant < (xs.getD (i + 1) DataUnit.zero).Chron then
      let out := st.out ++ [gapUnit st.mainant]
      match AddDurationParam st.mainant freqq with
      | none => ⟨Status.panic, out, st.mainant⟩
      | some m => gapEmit freqq xs i f ⟨Status.ok, out, m⟩
    else st

/-- The main loop on a list. -/
def mainEmit (freqq stat : String) (xs : List DataUnit) : Nat → Nat → Emit → Emit
  | 0, i, st => if i + 1 < xs.length then { st with status := Status.loops } else st
  | f + 1, i, st =>
    if i + 1 < xs.length then
      let c := collect (fun j => xs.getD j DataUnit.zero) st.mainant (xs.length - 1 - i) i []
      let out := st.out ++ [bucketUnit stat st.mainant c.2]
      match AddDurationParam st.mainant freqq with
      | none => ⟨Status.panic, out, st.mainant⟩
      | some m =>
        let g := gapEmit freqq xs c.1 f ⟨Status.ok, out, m⟩
        if g.status = Status.ok then mainEmit freqq stat xs f (c.1 + 1) g else g
    else st

/-- The status and the Resampled samples of `Downsampling` on the sorted Cleaned samples
`xs`. -/
def resample (fuel : Nat) (freqq stat : String) (xs : List DataUnit) : Status × List DataUnit :=
  match InterpretDurationParam freqq with
  | none => (Status.panic, [])
  | some _ =>
    if xs.length = 0 then (Status.panic, [])
    else
      match (roundedStartTime (xs.getD 0 DataUnit.zero).Chron freqq).bind
          (AddDurationParam · freqq) with
      | none => (Status.panic, [])
      | some m0 =>
        let e := mainEmit freqq stat xs fuel 0 ⟨Status.ok, [], m0⟩
        (e.status, e.out)

/-- A rejected sample: the sample with its `Origin` set to the cause. -/
def withOrigin (cause : String) (d : DataUnit) : DataUnit := { d with Origin := cause }

/-- The samples the two scans of `SliceCleaned` reject, in order, from the Cleaned samples
`xs` sorted by value: the run below `min` at the front, the last sample left aside, then the
run above `max` from the back. -/
def rejectedBy (min max : ℚ) (xs : List DataUnit) : List DataUnit :=
  (xs.take (xs.length - 1)).takeWhile (fun d => decide (d.Meas < min)) ++
    xs.reverse.takeWhile (fun d => decide (d.Meas > max))

/-! ## Frequency strings of the grammar -/

/-- The magnitude of a run of decimal digits. -/
def digitsValue (ds : List Char) : Nat := ds.foldl (fun n c => 10 * n + (c.toNat - 48)) 0

/-- The largest `int64`, the largest `time.Duration`. -/
def maxInt64 : Int := 9223372036854775807

/-- A container just after ingestion: from four empty series, Original is built by
`AddDataUnit`, sample after sample. -/
def ingest (E : Env) (xs : List DataUnit) : World :=
  xs.foldl (fun w du =>
    ⟨(AddDataUnit E w.heap w.tsc.Original du).1,
      { w.tsc with Original := (AddDataUnit E w.heap w.tsc.Original du).2 }⟩)
    (mkWorld [] [] [] [])

/-! ## Regular frequencies and the grid -/

/-- The duration of one unit of a frequency, in nanoseconds, for the units `s`, `m`, `h`. -/
def unitNanos (u : Char) : Int :=
  if u = 's' then second else if u = 'm' then minute else if u = 'h' then hour else 0

/-- The string `freqq` is a frequency of positive magnitude in unit `s`, `m` or `h`, and `f`
is its duration in nanoseconds, which fits in a `time.Duration`. -/
def Regular (freqq : String) (f : Int) : Prop :=
  ∃ n u, InterpretDurationParam freqq = some (n, u) ∧ (u = 's' ∨ u = 'm' ∨ u = 'h') ∧
    0 < n ∧ f = unitNanos u * n ∧ f ≤ maxInt64

/-- The samples `out` lie on the grid that starts at `m0` with step `f`: the sample of index
`j` has timestamp `m0 + j * f`. -/
def OnGrid (m0 f : Int) (out : List DataUnit) : Prop :=
  ∀ (j : Nat) (d : DataUnit), out[j]? = some d → d.Chron = m0 + (j : Int) * f

/-! ## The summary and the samples -/

/-- The cached summary agrees with the samples: `Dslen` is their number, `Chmin` the smallest
and `Chmax` the largest of their timestamps. -/
def SummaryAgrees (ss : SummaryStat) (samples : List DataUnit) : Prop :=
  ss.Dslen = samples.length ∧
  (∃ d ∈ samples, d.Chron = ss.Chmin) ∧ (∀ d ∈ samples, ss.Chmin ≤ d.Chron) ∧
  (∃ d ∈ samples, d.Chron = ss.Chmax) ∧ (∀ d ∈ samples, d.Chron ≤ ss.Chmax)

/-- The four trimming passes among the operations. -/
def Op.trims : Op → Bool
  | Op.DeviceLimitsCleaning _ _ _ => true
  | Op.PercCleaning _ _ => true
  | Op.ZscoreCleaning _ _ => true
  | Op.SliceCleaned _ _ _ => true
  | _ => false

/-! ## The algorithms of `sort.Slice`

The package `sort` of Go up to release 1.18 sorts a slice of at most 12 elements by one
pass of Shell sort with gap 6 followed by the insertion sort; from release 1.19 on it sorts
a slice of at most 12 elements by the insertion sort alone, and a longer one by a
pattern-defeating quicksort, which on 13 elements is one choice of pivot, one partition and
the insertion sort of both sides.  Neither is stable. -/

/-- The method `Swap(i, j)` on a list. -/
def swapAt (l : List DataUnit) (i j : Nat) : List DataUnit :=
  (l.set i (l.getD j DataUnit.zero)).set j (l.getD i DataUnit.zero)

/-- The Shell pass `for i := a + 6; i < b; i++ { if Less(i, i-6) { Swap(i, i-6) } }`. -/
def shellPass (lt : DataUnit → DataUnit → Bool) (l : List DataUnit) : List DataUnit :=
  (List.range' 6 (l.length - 6)).foldl (fun acc i =>
    if lt (acc.getD i DataUnit.zero) (acc.getD (i - 6) DataUnit.zero) then swapAt acc i (i - 6)
    else acc) l

/-- What `sort.Slice` does up to Go 1.18 on a slice of at most 12 elements. -/
def goSort118 (lt : DataUnit → DataUnit → Bool) (l : List DataUnit) : List DataUnit :=
  goSort lt (shellPass lt l)

/-- The function `order2` of `choosePivot`: the two indices in order, and the swap count. -/
def order2 (lt : DataUnit → DataUnit → Bool) (l : List DataUnit) (a b swaps : Nat) :
    Nat × Nat × Nat :=
  if lt (l.getD b DataUnit.zero) (l.getD a DataUnit.zero) then (b, a, swaps + 1)
  else (a, b, swaps)

/-- The function `median` of `choosePivot`: the index of the median of three, and the swap
count. -/
def median3 (lt : DataUnit → DataUnit → Bool) (l : List DataUnit) (a b c : Nat) : Nat × Nat :=
  let r1 := order2 lt l a b 0
  let r2 := order2 lt l r1.2.1 c r1.2.2
  let r3 := order2 lt l r1.1 r2.1 r2.2.2
  (r3.2.1, r3.2.2)

/-- The scan `for i <= j && Less(i, a) { i++ }` of `partition`, with `a = 0`; the first
argument bounds the number of steps. -/
def scanUp (lt : DataUnit → DataUnit → Bool) (l : List DataUnit) (j : Nat) : Nat → Nat → Nat
  | 0, i => i
  | k + 1, i =>
    if i ≤ j ∧ lt (l.getD i DataUnit.zero) (l.getD 0 DataUnit.zero) = true then
      scanUp lt l j k (i + 1)
    else i

/-- The scan `for i <= j && !Less(j, a) { j-- }` of `partition`, with `a = 0`. -/
def scanDown (lt : DataUnit → DataUnit → Bool) (l : List DataUnit) (i : Nat) : Nat → Nat → Nat
  | 0, j => j
  | k + 1, j =>
    if i ≤ j ∧ lt (l.getD j DataUnit.zero) (l.getD 0 DataUnit.zero) = false then
      scanDown lt l i k (j - 1)
    else j

/-- The main loop of `partition`, with `a = 0`: the list and the final `j`. -/
def partitionLoop (lt : DataUnit → DataUnit → Bool) :
    Nat → List DataUnit → Nat → Nat → List DataUnit × Nat
  | 0, l, _, j => (l, j)
  | k + 1, l, i, j =>
    let i1 := scanUp lt l j l.length i
    let j1 := scanDown lt l i1 l.length j
    if i1 > j1 then (l, j1)
    else partitionLoop lt k (swapAt l i1 j1) (i1 + 1) (j1 - 1)

/-- The function `partition` on the whole slice (`a = 0`): the list and the new index of the
pivot. -/
def partition (lt : DataUnit → DataUnit → Bool) (l : List DataUnit) (pivot : Nat) :
    List DataUnit × Nat :=
  let l1 := swapAt l 0 pivot
  let i := scanUp lt l1 (l1.length - 1) l1.length 1
  let j := scanDown lt l1 i l1.length (l1.length - 1)
  if i > j then (swapAt l1 j 0, j)
  else
    let r := partitionLoop lt l1.length (swapAt l1 i j) (i + 1) (j - 1)
    (swapAt r.1 r.2 0, r.2)

/-- The test of `partialInsertionSort` on a short slice: no element is less than its
predecessor. -/
def inOrder (lt : DataUnit → DataUnit → Bool) : List DataUnit → Bool
  | a :: b :: rest => !(lt b a) && inOrder lt (b :: rest)
  | _ => true

/-- What `sort.Slice` does from Go 1.19 on, on a slice of at most 13 elements: the insertion
sort up to 12 elements; on 13, the pivot is the median of the elements of index 3, 6 and 9,
a slice found in order (no swap in the median, no element less than its predecessor) is left
as it is, otherwise one partition and the insertion sort of both sides. -/
def goSort119 (lt : DataUnit → DataUnit → Bool) (l : List DataUnit) : List DataUnit :=
  if l.length ≤ 12 then goSort lt l
  else
    let q := l.length / 4
    let p := median3 lt l q (q * 2) (q * 3)
    if p.2 = 0 ∧ inOrder lt l = true then l
    else
      let r := partition lt l p.1
      goSort lt (r.1.take r.2) ++ r.1.getD r.2 DataUnit.zero :: goSort lt (r.1.drop (r.2 + 1))

/-- The environment of Go up to release 1.18, for series of at most 12 samples. -/
def go118Env : Env := { goEnv with sort := goSort118 }

/-- The environment of Go from release 1.19 on, for series of at most 13 samples. -/
def go119Env : Env := { goEnv with sort := goSort119 }

/-- The samples a series shows after `SortChronAsc`. -/
def sortedAsc (E : Env) (h : Heap) (ts : TimeSeries) : List DataUnit :=
  ts.DataSeries.view (SortChronAsc E h ts)

/-- The samples a series shows after `SortChronAsc`, then `SortChronDesc`, then
`SortChronAsc`. -/
def sortedAscDescAsc (E : Env) (h : Heap) (ts : TimeSeries) : List DataUnit :=
  ts.DataSeries.view (SortChronAsc E (SortChronDesc E (SortChronAsc E h ts) ts) ts)

/-- Eight samples with values 0 to 7: the first at instant 1, the others at instant 0. -/
def eightSamples : List DataUnit :=
  [mkUnit 1 0, mkUnit 0 1, mkUnit 0 2, mkUnit 0 3, mkUnit 0 4, mkUnit 0 5, mkUnit 0 6,
   mkUnit 0 7]

/-- Thirteen samples with values 0 to 12: the first at instant 1, the others at instant 0. -/
def thirteenSamples : List DataUnit :=
  [mkUnit 1 0, mkUnit 0 1, mkUnit 0 2, mkUnit 0 3, mkUnit 0 4, mkUnit 0 5, mkUnit 0 6,
   mkUnit 0 7, mkUnit 0 8, mkUnit 0 9, mkUnit 0 10, mkUnit 0 11, mkUnit 0 12]

/-! ## The quicksort of Go up to release 1.18

On more than 12 elements the function `quickSort` of package `sort` calls `doPivot`, sorts
the part before the pivot block and the part after it, and leaves the block in between, the
elements found equal to the pivot, as it is.  On 13 elements both parts have at most 12
elements and are sorted by the Shell pass and the insertion sort. -/

theorem insertBack_perm (lt : DataUnit → DataUnit → Bool) (x : DataUnit) (ys : List DataUnit) :
    (insertBack lt x ys).Perm (x :: ys) := by
  induction ys with
  | nil => simp [insertBack]
  | cons y ys ih =>
    unfold insertBack
    split
    · exact (List.Perm.cons y ih).trans (List.Perm.swap x y ys)
    · exact List.Perm.refl _

theorem foldl_insertBack_perm (lt : DataUnit → DataUnit → Bool) (l acc : List DataUnit) :
    (l.foldl (fun acc x => insertBack lt x acc) acc).Perm (l ++ acc) := by
  induction l generalizing acc with
  | nil => simp
  | cons x l ih =>
    simp only [List.foldl_cons, List.cons_append]
    refine (ih _).trans ?_
    exact (List.Perm.append_left l (insertBack_perm lt x acc)).trans List.perm_middle

theorem goSort_perm (lt : DataUnit → DataUnit → Bool) (l : List DataUnit) :
    (goSort lt l).Perm l := by
  unfold goSort
  refine (List.reverse_perm _).trans ?_
  simpa using foldl_insertBack_perm lt l []

theorem insertBack_sorted (lt : DataUnit → DataUnit → Bool)
    (hasym : ∀ a b, lt a b = true → lt b a = false)
    (htrans : ∀ a b c, lt a b = false → lt b c = false → lt a c = false)
    (x : DataUnit) (ys : List DataUnit) (h : ys.Pairwise (fun a b => lt a b = false)) :
    (insertBack lt x ys).Pairwise (fun a b => lt a b = false) := by
  induction ys with
  | nil => simp [insertBack]
  | cons y ys ih =>
    rw [List.pairwise_cons] at h
    unfold insertBack
    split
    · rename_i hxy
      rw [List.pairwise_cons]
      refine ⟨fun z hz => ?_, ih h.2⟩
      rcases List.mem_cons.1 ((insertBack_perm lt x ys).subset hz) with rfl | hz
      · exact hasym _ _ hxy
      · exact h.1 z hz
    · rename_i hxy
      have hxy : lt x y = false := by simpa using hxy
      refine List.pairwise_cons.2 ⟨fun z hz => ?_, List.pairwise_cons.2 h⟩
      rcases List.mem_cons.1 hz with rfl | hz
      · exact hxy
      · exact htrans _ _ _ hxy (h.1 z hz)

theorem goSort_sorted (lt : DataUnit → DataUnit → Bool) (l : List DataUnit)
    (hasym : ∀ a b, lt a b = true → lt b a = false)
    (htrans : ∀ a b c, lt a b = false → lt b c = false → lt a c = false) :
    (goSort lt l).Pairwise (fun a b => lt b a = false) := by
  unfold goSort
  rw [List.pairwise_reverse]
  suffices H : ∀ acc : List DataUnit, acc.Pairwise (fun a b => lt a b = false) →
      (l.foldl (fun acc x => insertBack lt x acc) acc).Pairwise (fun a b => lt a b = false) from
    H [] List.Pairwise.nil
  induction l with
  | nil => intro acc h; simpa using h
  | cons x l ih =>
    intro acc h
    exact ih _ (insertBack_sorted lt hasym htrans x acc h)

theorem goEnv_lawful : goEnv.Lawful where
  sort_perm := goSort_perm
  sort_sorted := goSort_sorted
  grow_gt := fun c => by
    show c < (if c = 0 then 1 else 2 * c)
    split <;> omega


/-! ## Slices and the heap -/

theorem view_getElem? (h : Heap) (s : Slice) (i : Nat) :
    (s.view h)[i]? = if i < s.len then (h.arr s.ptr)[s.off + i]? else none := by
  unfold Slice.view
  rw [List.getElem?_take, List.getElem?_drop]

theorem view_length (h : Heap) (s : Slice) (hv : s.valid h) : (s.view h).length = s.len := by
  obtain ⟨_, h2, h3⟩ := hv
  unfold Slice.view
  rw [List.length_take, List.length_drop]
  omega

theorem view_congr (h h1 : Heap) (s : Slice) (e : h1.arr s.ptr = h.arr s.ptr) :
    s.view h1 = s.view h := by
  unfold Slice.view; rw [e]

theorem get_congr (h h1 : Heap) (s : Slice) (e : h1.arr s.ptr = h.arr s.ptr) :
    s.get h1 = s.get h := by
  funext i; unfold Slice.get; rw [e]

theorem get_eq_view (h : Heap) (s : Slice) (i : Nat) (hi : i < s.len) :
    s.get h i = (s.view h).getD i DataUnit.zero := by
  unfold Slice.get
  rw [List.getD_eq_getElem?_getD, List.getD_eq_getElem?_getD, view_getElem?, if_pos hi]

theorem get_mem_view (h : Heap) (s : Slice) (hv : s.valid h) (i : Nat) (hi : i < s.len) :
    s.get h i ∈ s.view h := by
  have hl := view_length h s hv
  rw [get_eq_view h s i hi, List.getD_eq_getElem?_getD,
    List.getElem?_eq_getElem (by omega : i < (s.view h).length)]
  exact List.getElem_mem _

theorem store_arr (h : Heap) (s : Slice) (i : Nat) (x : DataUnit) (q : Nat) (hq : q ≠ s.ptr) :
    (s.store h i x).arr q = h.arr q := by
  simp [Slice.store, Function.update_noteq hq]

theorem store_arr_self (h : Heap) (s : Slice) (i : Nat) (x : DataUnit) :
    (s.store h i x).arr s.ptr = (h.arr s.ptr).set (s.off + i) x := by
  simp [Slice.store]

theorem store_next (h : Heap) (s : Slice) (i : Nat) (x : DataUnit) :
    (s.store h i x).next = h.next := rfl

theorem storeAll_arr (h : Heap) (s : Slice) (xs : List DataUnit) (q : Nat) (hq : q ≠ s.ptr) :
    (s.storeAll h xs).arr q = h.arr q := by
  simp [Slice.storeAll, Function.update_noteq hq]

theorem storeAll_next (h : Heap) (s : Slice) (xs : List DataUnit) :
    (s.storeAll h xs).next = h.next := rfl

theorem storeAll_arr_self (h : Heap) (s : Slice) (xs : List DataUnit) :
    (s.storeAll h xs).arr s.ptr =
      (h.arr s.ptr).take s.off ++ xs ++ (h.arr s.ptr).drop (s.off + s.len) := by
  simp [Slice.storeAll]

/-- A store keeps every slice valid. -/
theorem store_valid (h : Heap) (s c : Slice) (i : Nat) (x : DataUnit) (hc : c.valid h) :
    c.valid (s.store h i x) := by
  obtain ⟨h1, h2, h3⟩ := hc
  refine ⟨h1, h2, ?_⟩
  by_cases e : c.ptr = s.ptr
  · rw [e, store_arr_self, List.length_set, ← e]; exact h3
  · rw [store_arr _ _ _ _ _ e]; exact h3

/-- An in-place sort of a valid slice keeps the length of its array. -/
theorem storeAll_length (h : Heap) (s : Slice) (xs : List DataUnit) (hs : s.valid h)
    (hx : xs.length = s.len) :
    ((s.storeAll h xs).arr s.ptr).length = (h.arr s.ptr).length := by
  obtain ⟨_, h2, h3⟩ := hs
  rw [storeAll_arr_self]
  simp only [List.length_append, List.length_take, List.length_drop, hx]
  omega

theorem storeAll_valid (h : Heap) (s c : Slice) (xs : List DataUnit) (hs : s.valid h)
    (hx : xs.length = s.len) (hc : c.valid h) : c.valid (s.storeAll h xs) := by
  obtain ⟨h1, h2, h3⟩ := hc
  refine ⟨h1, h2, ?_⟩
  by_cases e : c.ptr = s.ptr
  · rw [e, storeAll_length h s xs hs hx, ← e]; exact h3
  · rw [storeAll_arr _ _ _ _ e]; exact h3

/-- The slice shows what an in-place sort wrote. -/
theorem storeAll_view (h : Heap) (s : Slice) (xs : List DataUnit) (hs : s.valid h)
    (hx : xs.length = s.len) : s.view (s.storeAll h xs) = xs := by
  obtain ⟨_, h2, h3⟩ := hs
  unfold Slice.view
  rw [storeAll_arr_self]
  have h4 : ((h.arr s.ptr).take s.off).length = s.off := by
    rw [List.length_take]; omega
  rw [List.append_assoc, List.drop_append_of_le_length (by omega)]
  rw [List.drop_of_length_le (by omega), List.nil_append]
  rw [List.take_append_of_le_length (by omega), List.take_of_length_le (by omega)]

/-- The elements a store at a visible index leaves in the view. -/
theorem store_view (h : Heap) (s : Slice) (i : Nat) (x : DataUnit) :
    s.view (s.store h i x) = if i < s.len then (s.view h).set i x else s.view h := by
  apply List.ext_getElem?
  intro n
  rw [view_getElem?, store_arr_self, List.getElem?_set]
  by_cases hi : i < s.len
  · rw [if_pos hi, List.getElem?_set, view_getElem?]
    by_cases hn : n < s.len
    · by_cases e : i = n
      · subst e
        have hl : (i < (s.view h).length) ↔ (s.off + i < (h.arr s.ptr).length) := by
          unfold Slice.view
          rw [List.length_take, List.length_drop]
          omega
        simp [hn, hl]
      · have : s.off + i ≠ s.off + n := by omega
        simp [e, this, hn]
    · have e : i ≠ n := by omega
      simp [hn, e]
  · rw [if_neg hi, view_getElem?]
    by_cases hn : n < s.len
    · have : s.off + i ≠ s.off + n := by omega
      simp [hn, this]
    · simp [hn]

theorem Grows.refl (h : Heap) (s : Slice) (hv : s.valid h) : Grows h s h s [] :=
  ⟨hv, le_refl _, fun _ _ _ => rfl, Or.inl rfl, by simp⟩

theorem Grows.trans {h h1 h2 : Heap} {s s1 s2 : Slice} {a b : List DataUnit}
    (g1 : Grows h s h1 s1 a) (g2 : Grows h1 s1 h2 s2 b) : Grows h s h2 s2 (a ++ b) := by
  refine ⟨g2.valid, le_trans g1.next_le g2.next_le, ?_, ?_, ?_⟩
  · intro q hq hne
    have hq1 : q < h1.next := lt_of_lt_of_le hq g1.next_le
    have hne1 : q ≠ s1.ptr := by
      rcases g1.ptr with e | e
      · rw [e]; exact hne
      · omega
    rw [g2.frame q hq1 hne1, g1.frame q hq hne]
  · rcases g2.ptr with e | e
    · rcases g1.ptr with e1 | e1
      · exact Or.inl (e.trans e1)
      · exact Or.inr (by rw [e]; exact e1)
    · exact Or.inr (le_trans g1.next_le e)
  · rw [g2.view, g1.view, List.append_assoc]

/-- Another slice, on another array, is not touched while `s` grows. -/
theorem Grows.other_arr {h h1 : Heap} {s s1 : Slice} {a : List DataUnit} (g : Grows h s h1 s1 a)
    (c : Slice) (hc : c.ptr < h.next) (hne : c.ptr ≠ s.ptr) : h1.arr c.ptr = h.arr c.ptr :=
  g.frame c.ptr hc hne

theorem Grows.other_ptr {h h1 : Heap} {s s1 : Slice} {a : List DataUnit} (g : Grows h s h1 s1 a)
    (c : Slice) (hc : c.ptr < h.next) (hne : c.ptr ≠ s.ptr) : c.ptr ≠ s1.ptr := by
  rcases g.ptr with e | e
  · rw [e]; exact hne
  · omega

theorem Grows.other_valid {h h1 : Heap} {s s1 : Slice} {a : List DataUnit}
    (g : Grows h s h1 s1 a) (c : Slice) (hc : c.valid h) (hne : c.ptr ≠ s.ptr) : c.valid h1 := by
  obtain ⟨c1, c2, c3⟩ := hc
  refine ⟨lt_of_lt_of_le c1 g.next_le, c2, ?_⟩
  rw [g.frame c.ptr c1 hne]; exact c3

theorem Grows.len_add {h h1 : Heap} {s s1 : Slice} {a : List DataUnit} (g : Grows h s h1 s1 a)
    (hv : s.valid h) : s1.len = s.len + a.length := by
  have e := congrArg List.length g.view
  rw [view_length _ _ g.valid, List.length_append, view_length _ _ hv] at e
  exact e

/-- The built-in `append` on a valid slice. -/
theorem append_grows (E : Env) (hE : E.Lawful) (h : Heap) (s : Slice) (x : DataUnit)
    (hv : s.valid h) : Grows h s (s.append E h x).1 (s.append E h x).2 [x] := by
  obtain ⟨v1, v2, v3⟩ := hv
  unfold Slice.append
  split
  · rename_i hlt
    refine ⟨⟨v1, by simpa using hlt, ?_⟩, le_refl _, ?_, Or.inl rfl, ?_⟩
    · show s.off + s.cap ≤ ((s.store h s.len x).arr s.ptr).length
      rw [store_arr_self, List.length_set]; exact v3
    · intro q _ hne; exact store_arr h s s.len x q hne
    · apply List.ext_getElem?
      intro n
      rw [view_getElem?]
      show (if n < s.len + 1 then ((s.store h s.len x).arr s.ptr)[s.off + n]? else none) = _
      rw [store_arr_self, List.getElem?_set, List.getElem?_append,
        view_length h s ⟨v1, v2, v3⟩, view_getElem?]
      by_cases hn : n < s.len
      · have : s.off + s.len ≠ s.off + n := by omega
        have hn1 : n < s.len + 1 := by omega
        simp [hn, this, hn1]
      · by_cases e : n = s.len
        · subst e
          have : s.off + s.len < (h.arr s.ptr).length := by omega
          simp [this]
        · have hn1 : ¬ n < s.len + 1 := by omega
          have : n - s.len ≠ 0 := by omega
          simp [hn, hn1]
          omega
  · rename_i hge
    have hl := view_length h s ⟨v1, v2, v3⟩
    have hg := hE.grow_gt s.cap
    refine ⟨⟨?_, ?_, ?_⟩, ?_, ?_, Or.inr (le_refl _), ?_⟩
    · show h.next < h.next + 1; omega
    · show s.len + 1 ≤ E.grow s.cap; omega
    · show 0 + E.grow s.cap ≤ (Function.update h.arr h.next _ h.next).length
      rw [Function.update_same]
      simp only [List.length_append, List.length_cons, List.length_replicate, hl]
      omega
    · show h.next ≤ h.next + 1; omega
    · intro q hq _
      show Function.update h.arr h.next _ q = h.arr q
      rw [Function.update_noteq (by omega)]
    · show ((Function.update h.arr h.next _ h.next).drop 0).take (s.len + 1) = _
      rw [Function.update_same, List.drop_zero]
      have : s.view h ++ x :: List.replicate (E.grow s.cap - (s.len + 1)) DataUnit.zero
          = (s.view h ++ [x]) ++ List.replicate (E.grow s.cap - (s.len + 1)) DataUnit.zero := by
        simp
      rw [this, List.take_append_of_le_length (by simp [hl]), List.take_of_length_le (by simp [hl])]

/-- One rejection appends the sample read, with its `Origin` set. -/
theorem rejectUnit_grows (E : Env) (hE : E.Lawful) (cause : String) (cl : Slice) (i : Nat)
    (t : Trim) (hv : t.rej.DataSeries.valid t.heap) :
    Grows t.heap t.rej.DataSeries (rejectUnit E cause cl i t).heap
      (rejectUnit E cause cl i t).rej.DataSeries [withOrigin cause (cl.get t.heap i)] := by
  have g := append_grows E hE t.heap t.rej.DataSeries (cl.get t.heap i) hv
  have hlen := g.len_add hv
  simp only [List.length_singleton] at hlen
  set r := (t.rej.DataSeries.append E t.heap (cl.get t.heap i)).2 with hr
  set h1 := (t.rej.DataSeries.append E t.heap (cl.get t.heap i)).1 with hh1
  have hlast : r.len - 1 < r.len := by omega
  have hget : r.get h1 (r.len - 1) = cl.get t.heap i := by
    rw [get_eq_view _ _ _ hlast, g.view, List.getD_eq_getElem?_getD, hlen,
      List.getElem?_append_right (by rw [view_length _ _ hv]; omega), view_length _ _ hv]
    simp
  show Grows t.heap t.rej.DataSeries
    (r.store h1 (r.len - 1) { r.get h1 (r.len - 1) with Origin := cause }) r _
  refine ⟨store_valid _ _ _ _ _ g.valid, g.next_le, ?_, g.ptr, ?_⟩
  · intro q hq hne
    have hne1 : q ≠ r.ptr := by
      rcases g.ptr with e | e
      · rw [e]; exact hne
      · omega
    rw [store_arr _ _ _ _ _ hne1, g.frame q hq hne]
  · rw [store_view, if_pos hlast, g.view, hget, hlen]
    have : t.rej.DataSeries.len + 1 - 1 = (t.rej.DataSeries.view t.heap).length := by
      rw [view_length _ _ hv]; omega
    rw [this, List.set_append_right _ _ (le_refl _)]
    simp [withOrigin]


/-! ## The scans of `SliceCleaned` -/

theorem drop_take_succ (V : List DataUnit) (i k : Nat) (hi : i < V.length) :
    (V.drop i).take (k + 1) = V.getD i DataUnit.zero :: (V.drop (i + 1)).take k := by
  rw [List.drop_eq_getElem_cons hi, List.take_succ_cons, List.getD_eq_getElem?_getD,
    List.getElem?_eq_getElem hi]
  rfl

theorem take_succ_reverse (V : List DataUnit) (k : Nat) (hk : k < V.length) :
    (V.take (k + 1)).reverse = V.getD k DataUnit.zero :: (V.take k).reverse := by
  rw [List.take_succ, List.reverse_append, List.getD_eq_getElem?_getD,
    List.getElem?_eq_getElem hk]
  rfl

/-- The forward scan rejects the longest run of values below `min` among the `k` samples
from index `i` on. -/
theorem lowLoop_grows (E : Env) (hE : E.Lawful) (cause : String) (cl : Slice) (min : ℚ) :
    ∀ (k i : Nat) (t : Trim), i + k ≤ cl.len → t.rej.DataSeries.valid t.heap →
      cl.valid t.heap → cl.ptr ≠ t.rej.DataSeries.ptr →
      (lowLoop E cause cl min k i t).count = t.count +
        ((((cl.view t.heap).drop i).take k).takeWhile (fun d => decide (d.Meas < min))).length ∧
      Grows t.heap t.rej.DataSeries (lowLoop E cause cl min k i t).heap
        (lowLoop E cause cl min k i t).rej.DataSeries
        (((((cl.view t.heap).drop i).take k).takeWhile
          (fun d => decide (d.Meas < min))).map (withOrigin cause)) := by
  intro k
  induction k with
  | zero =>
    intro i t _ hv _ _
    simpa [lowLoop] using Grows.refl _ _ hv
  | succ k ih =>
    intro i t hik hv hc hne
    have hi : i < cl.len := by omega
    have hiv : i < (cl.view t.heap).length := by rw [view_length _ _ hc]; exact hi
    rw [drop_take_succ _ _ _ hiv, ← get_eq_view _ _ _ hi]
    unfold lowLoop
    by_cases hm : (cl.get t.heap i).Meas < min
    · rw [if_pos hm, List.takeWhile_cons_of_pos (by simpa using hm)]
      have g1 := rejectUnit_grows E hE cause cl i t hv
      have hc1 := g1.other_valid cl hc hne
      have hne1 := g1.other_ptr cl hc.1 hne
      have hview : cl.view (rejectUnit E cause cl i t).heap = cl.view t.heap :=
        view_congr _ _ _ (g1.other_arr cl hc.1 hne)
      obtain ⟨ih1, ih2⟩ := ih (i + 1) (rejectUnit E cause cl i t) (by omega) g1.valid hc1 hne1
      rw [hview] at ih1 ih2
      refine ⟨?_, ?_⟩
      · rw [ih1]; simp [rejectUnit]; omega
      · simpa using g1.trans ih2
    · rw [if_neg hm, List.takeWhile_cons_of_neg (by simpa using hm)]
      simpa using Grows.refl _ _ hv

/-- The backward scan rejects the longest run of values above `max` at the end of the first
`k` samples. -/
theorem highLoop_grows (E : Env) (hE : E.Lawful) (cause : String) (cl : Slice) (max : ℚ) :
    ∀ (k : Nat) (t : Trim), k ≤ cl.len → t.rej.DataSeries.valid t.heap →
      cl.valid t.heap → cl.ptr ≠ t.rej.DataSeries.ptr →
      (highLoop E cause cl max k t).count = t.count +
        (((cl.view t.heap).take k).reverse.takeWhile (fun d => decide (d.Meas > max))).length ∧
      Grows t.heap t.rej.DataSeries (highLoop E cause cl max k t).heap
        (highLoop E cause cl max k t).rej.DataSeries
        ((((cl.view t.heap).take k).reverse.takeWhile
          (fun d => decide (d.Meas > max))).map (withOrigin cause)) := by
  intro k
  induction k with
  | zero =>
    intro t _ hv _ _
    simpa [highLoop] using Grows.refl _ _ hv
  | succ k ih =>
    intro t hk hv hc hne
    have hi : k < cl.len := by omega
    have hiv : k < (cl.view t.heap).length := by rw [view_length _ _ hc]; exact hi
    rw [take_succ_reverse _ _ hiv, ← get_eq_view _ _ _ hi]
    unfold highLoop
    by_cases hm : (cl.get t.heap k).Meas > max
    · rw [if_pos hm, List.takeWhile_cons_of_pos (by simpa using hm)]
      have g1 := rejectUnit_grows E hE cause cl k t hv
      have hc1 := g1.other_valid cl hc hne
      have hne1 := g1.other_ptr cl hc.1 hne
      have hview : cl.view (rejectUnit E cause cl k t).heap = cl.view t.heap :=
        view_congr _ _ _ (g1.other_arr cl hc.1 hne)
      obtain ⟨ih1, ih2⟩ := ih (rejectUnit E cause cl k t) (by omega) g1.valid hc1 hne1
      rw [hview] at ih1 ih2
      refine ⟨?_, ?_⟩
      · rw [ih1]; simp [rejectUnit]; omega
      · simpa using g1.trans ih2
    · rw [if_neg hm, List.takeWhile_cons_of_neg (by simpa using hm)]
      simpa using Grows.refl _ _ hv

/-- A sort in place shows the sorted samples and keeps the slice within its array. -/
theorem sort_view (E : Env) (hE : E.Lawful) (lt : DataUnit → DataUnit → Bool) (h : Heap)
    (s : Slice) (hs : s.valid h) :
    s.view (s.storeAll h (E.sort lt (s.view h))) = E.sort lt (s.view h) :=
  storeAll_view h s _ hs (by rw [(hE.sort_perm lt _).length_eq, view_length h s hs])

theorem sort_valid (E : Env) (hE : E.Lawful) (lt : DataUnit → DataUnit → Bool) (h : Heap)
    (s c : Slice) (hs : s.valid h) (hc : c.valid h) :
    c.valid (s.storeAll h (E.sort lt (s.view h))) :=
  storeAll_valid h s c _ hs (by rw [(hE.sort_perm lt _).length_eq, view_length h s hs]) hc

/-- The two scans of `SliceCleaned` append `rejectedBy` of the sorted Cleaned samples to
Rejected, and touch no other array. -/
theorem sliceScans_grows (E : Env) (hE : E.Lawful) (min max : ℚ) (cause : String) (w : World)
    (hw : w.wf) :
    Grows (SortMeasAsc E w.heap w.tsc.Cleaned) w.tsc.Rejected.DataSeries
      (sliceScans E min max cause w).2.heap (sliceScans E min max cause w).2.rej.DataSeries
      ((rejectedBy min max (E.sort measLess w.cleaned)).map (withOrigin cause)) := by
  obtain ⟨_, hcl, _, hrej, _, hrc, _, _, _⟩ := hw
  set cl := w.tsc.Cleaned.DataSeries with hcl_def
  set h0 := SortMeasAsc E w.heap w.tsc.Cleaned with hh0
  have hview0 : cl.view h0 = E.sort measLess w.cleaned := sort_view E hE measLess w.heap cl hcl
  have hcl0 : cl.valid h0 := sort_valid E hE measLess w.heap cl cl hcl hcl
  have hrej0 : w.tsc.Rejected.DataSeries.valid h0 :=
    sort_valid E hE measLess w.heap cl _ hcl hrej
  have hlenV : (E.sort measLess w.cleaned).length = cl.len := by
    rw [← hview0, view_length _ _ hcl0]
  obtain ⟨_, g1⟩ := lowLoop_grows E hE cause cl min (cl.len - 1) 0 ⟨h0, w.tsc.Rejected, 0⟩
    (by simp) hrej0 hcl0 (Ne.symm hrc)
  set lo := lowLoop E cause cl min (cl.len - 1) 0 ⟨h0, w.tsc.Rejected, 0⟩ with hlo
  have hcl1 : cl.valid lo.heap := g1.other_valid cl hcl0 (Ne.symm hrc)
  have hne1 := g1.other_ptr cl hcl0.1 (Ne.symm hrc)
  have hview1 : cl.view lo.heap = cl.view h0 :=
    view_congr _ _ _ (g1.other_arr cl hcl0.1 (Ne.symm hrc))
  obtain ⟨_, g2⟩ := highLoop_grows E hE cause cl max cl.len ⟨lo.heap, lo.rej, 0⟩
    (le_refl _) g1.valid hcl1 hne1
  have g := g1.trans g2
  simp only [hview1, hview0, List.drop_zero] at g
  rw [← hlenV, List.take_length] at g
  simpa [rejectedBy, sliceScans, hlenV] using g


/-! ## Index checks of `Complete` and `ComputeSummaryStat` -/

theorem index_of_lt (h : Heap) (s : Slice) (i : Nat) (hi : i < s.len) :
    s.index h (i : Int) = some (s.get h i) := by
  unfold Slice.index
  rw [if_pos ⟨by omega, by omega⟩, Int.toNat_ofNat]

theorem index_pred (h : Heap) (s : Slice) (i : Nat) (h1 : 1 ≤ i) (hi : i ≤ s.len) :
    s.index h ((i : Int) - 1) = some (s.get h (i - 1)) := by
  have e : ((i : Int) - 1) = ((i - 1 : Nat) : Int) := by omega
  rw [e]
  exact index_of_lt h s (i - 1) (by omega)

theorem index_none (h : Heap) (s : Slice) (i : Int) (hi : (s.len : Int) ≤ i) :
    s.index h i = none := by
  unfold Slice.index
  rw [if_neg (by omega)]

theorem modify_of_lt (h : Heap) (s : Slice) (i : Nat) (f : DataUnit → DataUnit)
    (hi : i < s.len) : s.modify h (i : Int) f = some (s.store h i (f (s.get h i))) := by
  unfold Slice.modify
  rw [if_pos ⟨by omega, by omega⟩, Int.toNat_ofNat]

theorem modify_none (h : Heap) (s : Slice) (i : Int) (f : DataUnit → DataUnit)
    (hi : (s.len : Int) ≤ i) : s.modify h i f = none := by
  unfold Slice.modify
  rw [if_neg (by omega)]

/-- A pass of the loop of `Complete` at an index from 1 to `len-1` does not panic. -/
theorem completePass_of_lt (s : Slice) (h : Heap) (i : Nat) (h1 : 1 ≤ i) (hi : i < s.len) :
    completePass s h (i : Int) = some (completeStep s h i) := by
  unfold completePass completeStep
  simp only [index_of_lt _ s i hi, index_pred _ s i h1 (by omega), modify_of_lt _ s i _ hi]

theorem completeRun_of_lt (s : Slice) (l : List Nat) (hl : ∀ i ∈ l, 1 ≤ i ∧ i < s.len) :
    ∀ h, completeRun s l h = (Status.ok, l.foldl (completeStep s) h) := by
  induction l with
  | nil => intro h; rfl
  | cons i l ih =>
    intro h
    unfold completeRun
    rw [completePass_of_lt s h i (hl i (List.mem_cons_self _ _)).1 (hl i (List.mem_cons_self _ _)).2]
    exact ih (fun j hj => hl j (List.mem_cons_of_mem _ hj)) _

/-- `ComputeSummaryStat` panics on the empty series, at `DataSeries[0]`, and on no other;
on a series with samples it reads the first and the last one. -/
theorem ComputeSummaryStat_eq (h : Heap) (ts : TimeSeries) :
    ComputeSummaryStat h ts =
      (let s := ts.DataSeries
       if s.len = 0 then
         (Status.panic, { ts with SumStat := { ts.SumStat with Dslen := 0 } })
       else
         let ms := MeasToArr h ts
         (Status.ok, { ts with SumStat :=
           { Dslen := s.len, Chmin := (s.get h 0).Chron, Chmax := (s.get h (s.len - 1)).Chron,
             Msmin := statsMin ms, Msmax := statsMax ms, Msmean := statsMean ms } })) := by
  unfold ComputeSummaryStat
  dsimp only
  have hall : (List.range' 1 (ts.DataSeries.len - 1)).all
      (fun i => (ts.DataSeries.index h (i : Int)).isSome) = true := by
    rw [List.all_eq_true]
    intro i hi
    rw [List.mem_range'_1] at hi
    rw [index_of_lt h _ i (by omega)]
    rfl
  rw [if_pos hall]
  by_cases hl : ts.DataSeries.len = 0
  · rw [if_pos hl, index_none h _ 0 (by omega)]
    dsimp only
    rw [hl]
  · rw [if_neg hl]
    have h0 := index_of_lt h ts.DataSeries 0 (by omega)
    have h1 := index_pred h ts.DataSeries ts.DataSeries.len (by omega) (le_refl _)
    simp only [Nat.cast_zero] at h0
    rw [h0]
    dsimp only
    rw [h1]

/-- `Complete` panics on the empty series, at `DataSeries[0]`, and on no other; on a series
with samples every pass of its loop stays in range. -/
theorem Complete_eq (E : Env) (h : Heap) (ts : TimeSeries) :
    Complete E h ts =
      (let h1 := SortChronAsc E h ts
       let s := ts.DataSeries
       if s.len = 0 then (Status.panic, h1, ts)
       else
         let h2 := s.store h1 0 { s.get h1 0 with Dchron := 0 }
         let h3 := s.store h2 0 { s.get h2 0 with Dmeas := 0 }
         let h4 := (List.range' 1 (s.len - 2)).foldl (completeStep s) h3
         ((ComputeSummaryStat h4 ts).1, h4, (ComputeSummaryStat h4 ts).2)) := by
  unfold Complete
  dsimp only
  by_cases hl : ts.DataSeries.len = 0
  · rw [if_pos hl, modify_none _ _ 0 _ (by omega)]
  · rw [if_neg hl]
    have m0 : ∀ (g : Heap) (f : DataUnit → DataUnit), ts.DataSeries.modify g 0 f =
        some (ts.DataSeries.store g 0 (f (ts.DataSeries.get g 0))) := by
      intro g f
      have := modify_of_lt g ts.DataSeries 0 f (by omega)
      simpa using this
    rw [m0]
    dsimp only
    rw [m0]
    dsimp only
    rw [completeRun_of_lt _ _ (fun i hi => by rw [List.mem_range'_1] at hi; omega)]
    rfl

/-! ## The frame of `Complete` and of `SliceCleaned` -/

theorem completeStep_arr (s : Slice) (h : Heap) (i q : Nat) (hq : q ≠ s.ptr) :
    (completeStep s h i).arr q = h.arr q := by
  unfold completeStep
  simp only [store_arr _ _ _ _ _ hq]

theorem completeLoop_arr (s : Slice) (q : Nat) (hq : q ≠ s.ptr) (l : List Nat) (h : Heap) :
    (l.foldl (completeStep s) h).arr q = h.arr q := by
  induction l generalizing h with
  | nil => rfl
  | cons i l ih => rw [List.foldl_cons, ih, completeStep_arr s h i q hq]

/-- `Complete` writes only in the array of its series. -/
theorem Complete_arr (E : Env) (h : Heap) (ts : TimeSeries) (q : Nat)
    (hq : q ≠ ts.DataSeries.ptr) : (Complete E h ts).2.1.arr q = h.arr q := by
  rw [Complete_eq]
  unfold SortChronAsc
  dsimp only
  split
  · exact storeAll_arr _ _ _ _ hq
  · show Heap.arr (List.foldl _ _ _) q = _
    rw [completeLoop_arr _ q hq, store_arr _ _ _ _ _ hq, store_arr _ _ _ _ _ hq,
      storeAll_arr _ _ _ _ hq]

theorem Complete_series (E : Env) (h : Heap) (ts : TimeSeries) :
    (Complete E h ts).2.2.DataSeries = ts.DataSeries := by
  rw [Complete_eq]
  dsimp only
  split
  · rfl
  · rw [ComputeSummaryStat_eq]
    dsimp only
    split <;> rfl

/-- What a trimming pass leaves in Rejected: the old samples, then `rejectedBy` of the
sorted Cleaned samples, each with its cause. -/
theorem SliceCleaned_rejected (E : Env) (hE : E.Lawful) (min max : ℚ) (cause : String)
    (w : World) (hw : w.wf) :
    (SliceCleaned E min max cause w).world.rejected =
      w.rejected ++ (rejectedBy min max (E.sort measLess w.cleaned)).map (withOrigin cause) := by
  have g := sliceScans_grows E hE min max cause w hw
  obtain ⟨_, hcl, _, hrej, _, hrc, _, _, _⟩ := hw
  have hcl0 : w.tsc.Cleaned.DataSeries.valid (SortMeasAsc E w.heap w.tsc.Cleaned) :=
    sort_valid E hE measLess w.heap _ _ hcl hcl
  have hne := g.other_ptr w.tsc.Cleaned.DataSeries hcl0.1 (Ne.symm hrc)
  have h0 : w.tsc.Rejected.DataSeries.view (SortMeasAsc E w.heap w.tsc.Cleaned) = w.rejected :=
    view_congr _ _ _ (storeAll_arr _ _ _ _ hrc)
  rw [← h0, ← g.view]
  unfold SliceCleaned
  dsimp only
  split
  · show (sliceScans E min max cause w).2.rej.DataSeries.view (Complete E _ _).2.1 = _
    exact view_congr _ _ _ (Complete_arr E _ _ _ (Ne.symm hne))
  · rfl

/-- The sort by value that opens `PercCleaning` and `ZscoreCleaning` keeps the state
well-formed and Rejected as it is. -/
theorem sortMeas_wf (E : Env) (hE : E.Lawful) (w : World) (hw : w.wf) :
    World.wf { w with heap := SortMeasAsc E w.heap w.tsc.Cleaned } ∧
    World.rejected { w with heap := SortMeasAsc E w.heap w.tsc.Cleaned } = w.rejected := by
  obtain ⟨ho, hcl, hres, hrej, h1, hrc, h3, h4, h5⟩ := hw
  refine ⟨⟨?_, ?_, ?_, ?_, h1, hrc, h3, h4, h5⟩, ?_⟩
  · exact sort_valid E hE measLess w.heap _ _ hcl ho
  · exact sort_valid E hE measLess w.heap _ _ hcl hcl
  · exact sort_valid E hE measLess w.heap _ _ hcl hres
  · exact sort_valid E hE measLess w.heap _ _ hcl hrej
  · exact view_congr _ _ _ (storeAll_arr _ _ _ _ hrc)


/-! ## `Downsampling` emits `resample` of the sorted Cleaned samples -/

theorem ResInv.step {cl : Slice} {xs : List DataUnit} {h h1 : Heap} {s s1 : Slice}
    {a : List DataUnit} (inv : ResInv cl xs h s) (g : Grows h s h1 s1 a) : ResInv cl xs h1 s1 :=
  ⟨g.valid, g.other_valid cl inv.valid_cl inv.ne, g.other_ptr cl inv.valid_cl.1 inv.ne,
    (view_congr _ _ _ (g.other_arr cl inv.valid_cl.1 inv.ne)).trans inv.view⟩

theorem ResInv.xs_length {cl : Slice} {xs : List DataUnit} {h : Heap} {s : Slice}
    (inv : ResInv cl xs h s) : xs.length = cl.len := by
  rw [← inv.view, view_length _ _ inv.valid_cl]

theorem ResInv.get {cl : Slice} {xs : List DataUnit} {h : Heap} {s : Slice}
    (inv : ResInv cl xs h s) (j : Nat) (hj : j < cl.len) :
    cl.get h j = xs.getD j DataUnit.zero := by
  rw [get_eq_view _ _ _ hj, inv.view]

theorem collect_congr (rd rd1 : Nat → DataUnit) (m : Int) :
    ∀ (k i : Nat) (vec : List ℚ), (∀ j, i ≤ j → j < i + k → rd j = rd1 j) →
      collect rd m k i vec = collect rd1 m k i vec := by
  intro k
  induction k with
  | zero => intro i vec _; rfl
  | succ k ih =>
    intro i vec hrd
    unfold collect
    rw [hrd i (le_refl _) (by omega)]
    rw [ih (i + 1) _ (fun j h1 h2 => hrd j (by omega) (by omega))]

theorem AddDataUnit_grows (E : Env) (hE : E.Lawful) (h : Heap) (ts : TimeSeries) (du : DataUnit)
    (hv : ts.DataSeries.valid h) :
    Grows h ts.DataSeries (AddDataUnit E h ts du).1 (AddDataUnit E h ts du).2.DataSeries [du] :=
  append_grows E hE h ts.DataSeries du hv

/-- The gap scan on the heap emits what the gap scan on the list emits. -/
theorem gapLoop_refines (E : Env) (hE : E.Lawful) (freqq : String) (cl : Slice)
    (xs : List DataUnit) (i : Nat) :
    ∀ (f : Nat) (st : Resamp) (e : Emit), ResInv cl xs st.heap st.res.DataSeries →
      e.status = st.status → e.mainant = st.mainant →
      (gapLoop E freqq cl i f st).status = (gapEmit freqq xs i f e).status ∧
      (gapLoop E freqq cl i f st).mainant = (gapEmit freqq xs i f e).mainant ∧
      ∃ added, (gapEmit freqq xs i f e).out = e.out ++ added ∧
        Grows st.heap st.res.DataSeries (gapLoop E freqq cl i f st).heap
          (gapLoop E freqq cl i f st).res.DataSeries added := by
  intro f
  induction f with
  | zero =>
    intro st e inv hs hm
    have hlen := inv.xs_length
    unfold gapLoop gapEmit
    by_cases hi : i + 2 < cl.len
    · rw [inv.get (i + 1) (by omega), hlen, hm]
      split
      · exact ⟨rfl, rfl, [], by simp, Grows.refl _ _ inv.valid_res⟩
      · exact ⟨hs.symm, hm.symm, [], by simp, Grows.refl _ _ inv.valid_res⟩
    · have h1 : ¬ (i + 2 < cl.len ∧ st.mainant < (cl.get st.heap (i + 1)).Chron) :=
        fun h => hi h.1
      have h2 : ¬ (i + 2 < xs.length ∧ e.mainant < (xs.getD (i + 1) DataUnit.zero).Chron) :=
        fun h => hi (hlen ▸ h.1)
      rw [if_neg h1, if_neg h2]
      exact ⟨hs.symm, hm.symm, [], by simp, Grows.refl _ _ inv.valid_res⟩
  | succ f ih =>
    intro st e inv hs hm
    have hlen := inv.xs_length
    unfold gapLoop gapEmit
    by_cases hi : i + 2 < cl.len
    · rw [inv.get (i + 1) (by omega), hlen, hm]
      split
      · have g1 := AddDataUnit_grows E hE st.heap st.res (gapUnit st.mainant) inv.valid_res
        dsimp only
        cases hadd : AddDurationParam st.mainant freqq with
        | none =>
          exact ⟨rfl, rfl, _, rfl, g1⟩
        | some m =>
          dsimp only
          obtain ⟨r1, r2, added, r3, r4⟩ := ih
            ⟨Status.ok, (AddDataUnit E st.heap st.res (gapUnit st.mainant)).1,
              (AddDataUnit E st.heap st.res (gapUnit st.mainant)).2, m⟩
            ⟨Status.ok, e.out ++ [gapUnit st.mainant], m⟩ (inv.step g1) rfl rfl
          refine ⟨r1, r2, gapUnit st.mainant :: added, ?_, ?_⟩
          · rw [r3]; simp
          · exact g1.trans r4
      · exact ⟨hs.symm, hm.symm, [], by simp, Grows.refl _ _ inv.valid_res⟩
    · have h1 : ¬ (i + 2 < cl.len ∧ st.mainant < (cl.get st.heap (i + 1)).Chron) :=
        fun h => hi h.1
      have h2 : ¬ (i + 2 < xs.length ∧ e.mainant < (xs.getD (i + 1) DataUnit.zero).Chron) :=
        fun h => hi (hlen ▸ h.1)
      rw [if_neg h1, if_neg h2]
      exact ⟨hs.symm, hm.symm, [], by simp, Grows.refl _ _ inv.valid_res⟩

/-- The main loop on the heap emits what the main loop on the list emits. -/
theorem mainLoop_refines (E : Env) (hE : E.Lawful) (freqq stat : String) (cl : Slice)
    (xs : List DataUnit) :
    ∀ (f i : Nat) (st : Resamp) (e : Emit), ResInv cl xs st.heap st.res.DataSeries →
      e.status = st.status → e.mainant = st.mainant →
      (mainLoop E freqq stat cl f i st).status = (mainEmit freqq stat xs f i e).status ∧
      (mainLoop E freqq stat cl f i st).mainant = (mainEmit freqq stat xs f i e).mainant ∧
      ∃ added, (mainEmit freqq stat xs f i e).out = e.out ++ added ∧
        Grows st.heap st.res.DataSeries (mainLoop E freqq stat cl f i st).heap
          (mainLoop E freqq stat cl f i st).res.DataSeries added := by
  intro f
  induction f with
  | zero =>
    intro i st e inv hs hm
    unfold mainLoop mainEmit
    rw [inv.xs_length]
    split
    · exact ⟨rfl, hm.symm, [], by simp, Grows.refl _ _ inv.valid_res⟩
    · exact ⟨hs.symm, hm.symm, [], by simp, Grows.refl _ _ inv.valid_res⟩
  | succ f ih =>
    intro i st e inv hs hm
    have hlen := inv.xs_length
    unfold mainLoop mainEmit
    rw [hlen]
    split
    · rename_i hi
      have hc : collect (cl.get st.heap) st.mainant (cl.len - 1 - i) i [] =
          collect (fun j => xs.getD j DataUnit.zero) e.mainant (cl.len - 1 - i) i [] := by
        rw [hm]
        exact collect_congr _ _ _ _ _ _ (fun j _ h2 => inv.get j (by omega))
      dsimp only
      rw [hc, hm]
      set c := collect (fun j => xs.getD j DataUnit.zero) st.mainant (cl.len - 1 - i) i []
        with hcdef
      have g1 := AddDataUnit_grows E hE st.heap st.res (bucketUnit stat st.mainant c.2)
        inv.valid_res
      cases hadd : AddDurationParam st.mainant freqq with
      | none => exact ⟨rfl, rfl, _, rfl, g1⟩
      | some m =>
        dsimp only
        obtain ⟨r1, r2, added, r3, r4⟩ := gapLoop_refines E hE freqq cl xs c.1 f
          ⟨Status.ok, (AddDataUnit E st.heap st.res (bucketUnit stat st.mainant c.2)).1,
            (AddDataUnit E st.heap st.res (bucketUnit stat st.mainant c.2)).2, m⟩
          ⟨Status.ok, e.out ++ [bucketUnit stat st.mainant c.2], m⟩ (inv.step g1) rfl rfl
        have g2 := g1.trans r4
        rw [r1]
        split
        · obtain ⟨q1, q2, added2, q3, q4⟩ := ih (c.1 + 1) _ _ ((inv.step g1).step r4) r1.symm
            r2.symm
          refine ⟨q1, q2, (bucketUnit stat st.mainant c.2 :: added) ++ added2, ?_, ?_⟩
          · rw [q3, r3]; simp
          · exact g2.trans q4
        · refine ⟨r1, r2, bucketUnit stat st.mainant c.2 :: added, ?_, g2⟩
          rw [r3]; simp
    · exact ⟨hs.symm, hm.symm, [], by simp, Grows.refl _ _ inv.valid_res⟩

/-- Appending to Resampled in a well-formed state leaves the other three series as they are
and the state well-formed. -/
theorem grows_resampled (w : World) (hw : w.wf) (h1 : Heap) (res1 : TimeSeries)
    (a : List DataUnit) (g : Grows w.heap w.tsc.Resampled.DataSeries h1 res1.DataSeries a) :
    World.wf ⟨h1, { w.tsc with Resampled := res1 }⟩ ∧
    World.original ⟨h1, { w.tsc with Resampled := res1 }⟩ = w.original ∧
    World.cleaned ⟨h1, { w.tsc with Resampled := res1 }⟩ = w.cleaned ∧
    World.rejected ⟨h1, { w.tsc with Resampled := res1 }⟩ = w.rejected ∧
    World.resampled ⟨h1, { w.tsc with Resampled := res1 }⟩ = w.resampled ++ a := by
  obtain ⟨ho, hcl, hres, hrej, h1o, hrc, h3, h4, h5⟩ := hw
  refine ⟨⟨g.other_valid _ ho (Ne.symm h4), g.other_valid _ hcl (Ne.symm h5), g.valid,
    g.other_valid _ hrej h3, h1o, hrc, g.other_ptr _ hrej.1 h3,
    Ne.symm (g.other_ptr _ ho.1 (Ne.symm h4)), Ne.symm (g.other_ptr _ hcl.1 (Ne.symm h5))⟩,
    ?_, ?_, ?_, g.view⟩
  · exact view_congr _ _ _ (g.other_arr _ ho.1 (Ne.symm h4))
  · exact view_congr _ _ _ (g.other_arr _ hcl.1 (Ne.symm h5))
  · exact view_congr _ _ _ (g.other_arr _ hrej.1 h3)

/-- The state in which the loops of `Downsampling` start: Resampled reset, Cleaned sorted. -/
theorem downsampling_start (E : Env) (hE : E.Lawful) (w : World) (hw : w.wf) :
    World.wf ⟨SortChronAsc E w.heap w.tsc.Cleaned,
      { w.tsc with Resampled := Reset w.tsc.Resampled }⟩ ∧
    World.cleaned ⟨SortChronAsc E w.heap w.tsc.Cleaned,
      { w.tsc with Resampled := Reset w.tsc.Resampled }⟩ = E.sort chronLess w.cleaned ∧
    World.rejected ⟨SortChronAsc E w.heap w.tsc.Cleaned,
      { w.tsc with Resampled := Reset w.tsc.Resampled }⟩ = w.rejected ∧
    World.resampled ⟨SortChronAsc E w.heap w.tsc.Cleaned,
      { w.tsc with Resampled := Reset w.tsc.Resampled }⟩ = [] := by
  obtain ⟨ho, hcl, hres, hrej, h1o, hrc, h3, h4, h5⟩ := hw
  have hres1 := sort_valid E hE chronLess w.heap _ _ hcl hres
  refine ⟨⟨sort_valid E hE chronLess w.heap _ _ hcl ho, sort_valid E hE chronLess w.heap _ _ hcl hcl,
    ⟨hres1.1, Nat.zero_le _, hres1.2.2⟩, sort_valid E hE chronLess w.heap _ _ hcl hrej,
    h1o, hrc, h3, h4, h5⟩, ?_, ?_, ?_⟩
  · exact sort_view E hE chronLess w.heap _ hcl
  · exact view_congr _ _ _ (storeAll_arr _ _ _ _ hrc)
  · simp [World.resampled, Slice.view, Reset]

/-- `Downsampling` in a well-formed state: its status and the Resampled samples are
`resample` of the sorted Cleaned samples, whatever Resampled held; Cleaned is left sorted,
Rejected as it was, and the state well-formed. -/
theorem Downsampling_refines (E : Env) (hE : E.Lawful) (fuel : Nat) (freqq stat : String)
    (w : World) (hw : w.wf) :
    (Downsampling E fuel freqq stat w).status =
      (resample fuel freqq stat (E.sort chronLess w.cleaned)).1 ∧
    (Downsampling E fuel freqq stat w).world.resampled =
      (resample fuel freqq stat (E.sort chronLess w.cleaned)).2 ∧
    (Downsampling E fuel freqq stat w).world.cleaned = E.sort chronLess w.cleaned ∧
    (Downsampling E fuel freqq stat w).world.rejected = w.rejected ∧
    (Downsampling E fuel freqq stat w).world.wf := by
  obtain ⟨s1, s2, s3, s4⟩ := downsampling_start E hE w hw
  have hcl1 := s1.2.1
  have hlen : (E.sort chronLess w.cleaned).length = w.tsc.Cleaned.DataSeries.len := by
    rw [← s2]; exact view_length _ _ hcl1
  unfold Downsampling resample
  dsimp only
  cases hI : InterpretDurationParam freqq with
  | none => exact ⟨rfl, s4, s2, s3, s1⟩
  | some p =>
    dsimp only
    rw [hlen]
    split
    · exact ⟨rfl, s4, s2, s3, s1⟩
    · rename_i hne
      have hget : (w.tsc.Cleaned.DataSeries.get (SortChronAsc E w.heap w.tsc.Cleaned) 0) =
          (E.sort chronLess w.cleaned).getD 0 DataUnit.zero := by
        rw [get_eq_view _ _ _ (by omega)]
        exact congrArg (fun l => List.getD l 0 DataUnit.zero) s2
      rw [hget]
      cases hR : (roundedStartTime ((E.sort chronLess w.cleaned).getD 0 DataUnit.zero).Chron
          freqq).bind (AddDurationParam · freqq) with
      | none => exact ⟨rfl, s4, s2, s3, s1⟩
      | some m0 =>
        dsimp only
        have inv : ResInv w.tsc.Cleaned.DataSeries (E.sort chronLess w.cleaned)
            (SortChronAsc E w.heap w.tsc.Cleaned) (Reset w.tsc.Resampled).DataSeries :=
          ⟨s1.2.2.1, hcl1, Ne.symm s1.2.2.2.2.2.2.2.2, s2⟩
        obtain ⟨r1, _, added, r3, r4⟩ := mainLoop_refines E hE freqq stat
          w.tsc.Cleaned.DataSeries (E.sort chronLess w.cleaned) fuel 0
          ⟨Status.ok, SortChronAsc E w.heap w.tsc.Cleaned, Reset w.tsc.Resampled, m0⟩
          ⟨Status.ok, [], m0⟩ inv rfl rfl
        obtain ⟨t1, _, t3, t4, t5⟩ := grows_resampled
          ⟨SortChronAsc E w.heap w.tsc.Cleaned, { w.tsc with Resampled := Reset w.tsc.Resampled }⟩
          s1 _ _ added r4
        refine ⟨r1, ?_, t3.trans s2, t4.trans s3, t1⟩
        rw [r3]
        exact t5.trans (by rw [s4])


/-! ## The chronological comparison and sorted input -/

theorem chronLess_asymm (a b : DataUnit) (h : chronLess a b = true) : chronLess b a = false := by
  unfold chronLess at *
  simp only [decide_eq_true_eq, decide_eq_false_iff_not] at *
  omega

theorem chronLess_trans (a b c : DataUnit) (h1 : chronLess a b = false)
    (h2 : chronLess b c = false) : chronLess a c = false := by
  unfold chronLess at *
  simp only [decide_eq_false_iff_not] at *
  omega

/-- The insertion sort leaves a sorted list as it is. -/
theorem goSort_fix (lt : DataUnit → DataUnit → Bool) (l : List DataUnit)
    (h : l.Pairwise (fun a b => lt b a = false)) : goSort lt l = l := by
  unfold goSort
  suffices H : ∀ (l acc : List DataUnit), (acc.reverse ++ l).Pairwise (fun a b => lt b a = false) →
      l.foldl (fun acc x => insertBack lt x acc) acc = l.reverse ++ acc by
    rw [H l [] (by simpa using h)]; simp
  intro l
  induction l with
  | nil => intro acc _; rfl
  | cons x l ih =>
    intro acc hp
    have hins : insertBack lt x acc = x :: acc := by
      cases acc with
      | nil => rfl
      | cons y ys =>
        have hxy : lt x y = false := by
          rw [List.pairwise_append] at hp
          exact hp.2.2 y (by simp) x (by simp)
        simp [insertBack, hxy]
    rw [List.foldl_cons, hins, ih (x :: acc) (by simpa using hp)]
    simp


/-! ## Well-formedness is kept by every operation -/

theorem completeStep_valid (s c : Slice) (h : Heap) (i : Nat) (hc : c.valid h) :
    c.valid (completeStep s h i) := by
  unfold completeStep
  exact store_valid _ _ _ _ _ (store_valid _ _ _ _ _ hc)

theorem completeLoop_valid (s c : Slice) (l : List Nat) (h : Heap) (hc : c.valid h) :
    c.valid (l.foldl (completeStep s) h) := by
  induction l generalizing h with
  | nil => exact hc
  | cons i l ih => exact ih _ (completeStep_valid s c h i hc)

/-- `Complete` on a valid slice keeps every slice valid. -/
theorem Complete_valid (E : Env) (hE : E.Lawful) (h : Heap) (ts : TimeSeries) (c : Slice)
    (hs : ts.DataSeries.valid h) (hc : c.valid h) : c.valid (Complete E h ts).2.1 := by
  have h1 : c.valid (SortChronAsc E h ts) := sort_valid E hE chronLess h _ _ hs hc
  rw [Complete_eq]
  dsimp only
  split
  · exact h1
  · exact completeLoop_valid _ _ _ _ (store_valid _ _ _ _ _ (store_valid _ _ _ _ _ h1))

/-- A trimming pass keeps the state well-formed. -/
theorem SliceCleaned_wf (E : Env) (hE : E.Lawful) (min max : ℚ) (cause : String) (w : World)
    (hw : w.wf) : (SliceCleaned E min max cause w).world.wf := by
  have g := sliceScans_grows E hE min max cause w hw
  obtain ⟨ho, hcl, hres, hrej, h1, hrc, h3, h4, h5⟩ := hw
  have ho0 := sort_valid E hE measLess w.heap _ _ hcl ho
  have hcl0 := sort_valid E hE measLess w.heap _ _ hcl hcl
  have hres0 := sort_valid E hE measLess w.heap _ _ hcl hres
  have ho1 := g.other_valid _ ho0 (Ne.symm h1)
  have hcl1 := g.other_valid _ hcl0 (Ne.symm hrc)
  have hres1 := g.other_valid _ hres0 (Ne.symm h3)
  have n1 := Ne.symm (g.other_ptr _ ho0.1 (Ne.symm h1))
  have n2 := Ne.symm (g.other_ptr _ hcl0.1 (Ne.symm hrc))
  have n3 := Ne.symm (g.other_ptr _ hres0.1 (Ne.symm h3))
  unfold SliceCleaned
  dsimp only
  split
  · rename_i hb
    have hcl2 : Slice.valid (sliceScans E min max cause w).2.heap
        { ptr := w.tsc.Cleaned.DataSeries.ptr,
          off := w.tsc.Cleaned.DataSeries.off + (sliceScans E min max cause w).1.count,
          len := w.tsc.Cleaned.DataSeries.len - (sliceScans E min max cause w).2.count + 1 -
            (sliceScans E min max cause w).1.count,
          cap := w.tsc.Cleaned.DataSeries.cap - (sliceScans E min max cause w).1.count } := by
      obtain ⟨c1, c2, c3⟩ := hcl1
      refine ⟨c1, ?_, ?_⟩
      · dsimp only
        omega
      · dsimp only
        omega
    refine ⟨Complete_valid E hE _ _ _ hcl2 ho1, ?_, Complete_valid E hE _ _ _ hcl2 hres1,
      Complete_valid E hE _ _ _ hcl2 g.valid, n1, ?_, n3, h4, ?_⟩
    · show Slice.valid _ (Complete E _ _).2.2.DataSeries
      rw [Complete_series]
      exact Complete_valid E hE _ _ _ hcl2 hcl2
    · show _ ≠ (Complete E _ _).2.2.DataSeries.ptr
      rw [Complete_series]; exact n2
    · show _ ≠ (Complete E _ _).2.2.DataSeries.ptr
      rw [Complete_series]; exact h5
  · exact ⟨ho1, hcl1, hres1, g.valid, n1, n2, n3, h4, h5⟩

/-- `ResetCleanedSeries` keeps the state well-formed. -/
theorem ResetCleanedSeries_wf (w : World) (hw : w.wf) : (ResetCleanedSeries w).wf := by
  obtain ⟨ho, hcl, hres, hrej, h1, hrc, h3, h4, h5⟩ := hw
  exact ⟨ho, ho, ⟨hres.1, Nat.zero_le _, hres.2.2⟩, hrej, h1, h1, h3, h4, h4⟩

/-- Every operation of the container keeps the state well-formed, whatever its status. -/
theorem run_wf (E : Env) (hE : E.Lawful) (op : Op) (w : World) (hw : w.wf) :
    (op.run E w).world.wf := by
  cases op with
  | ResetCleanedSeries => exact ResetCleanedSeries_wf w hw
  | DeviceLimitsCleaning now min max => exact SliceCleaned_wf E hE min max _ w hw
  | PercCleaning now perc =>
    have hw1 := (sortMeas_wf E hE w hw).1
    show (PercCleaning E now perc w).world.wf
    unfold PercCleaning
    dsimp only
    split
    · exact SliceCleaned_wf E hE _ _ _ _ hw1
    · exact hw1
  | ZscoreCleaning now lvl =>
    exact SliceCleaned_wf E hE _ _ _ _ (sortMeas_wf E hE w hw).1
  | SliceCleaned min max cause => exact SliceCleaned_wf E hE min max cause w hw
  | Downsampling fuel freqq stat => exact (Downsampling_refines E hE fuel freqq stat w hw).2.2.2.2

/-- A container of four separately built series is well-formed. -/
theorem mkWorld_wf (orig cl res rej : List DataUnit) : (mkWorld orig cl res rej).wf := by
  simp [World.wf, Slice.valid, mkWorld, mkSeries]

/-! ## The claims -/

/-- C1 (trim containment), evaluated on the claim's own input.  Cleaned holds the values
1, 2 and 100 and the bounds are 0 and 50: `SliceCleaned` returns normally and Cleaned still
holds the three samples, among them the value 100, which is above `max`. -/
theorem C1_slice_keeps_value_above_max :
    (SliceCleaned goEnv 0 50 "cause"
      (mkWorld [] [mkUnit 10 1, mkUnit 20 2, mkUnit 30 100] [] [])).status = Status.ok ∧
    (SliceCleaned goEnv 0 50 "cause"
      (mkWorld [] [mkUnit 10 1, mkUnit 20 2, mkUnit 30 100] [] [])).world.cleaned.map (·.Meas)
      = [1, 2, 100] := by
  decide!

/-- C2 (trim partition), evaluated on Cleaned values 1, 2, 100 with bounds 0 and 50: the
pass starts from three Cleaned samples and no Rejected sample, and ends with three Cleaned
samples and one Rejected sample; the sample of value 100 is both kept and rejected. -/
theorem C2_slice_keeps_and_rejects_same_sample :
    (mkWorld [] [mkUnit 10 1, mkUnit 20 2, mkUnit 30 100] [] []).cleaned.length = 3 ∧
    (mkWorld [] [mkUnit 10 1, mkUnit 20 2, mkUnit 30 100] [] []).rejected = [] ∧
    (SliceCleaned goEnv 0 50 "cause"
      (mkWorld [] [mkUnit 10 1, mkUnit 20 2, mkUnit 30 100] [] [])).world.cleaned
      = [mkUnit 10 1, ⟨20, 10, 2, 1, ""⟩, mkUnit 30 100] ∧
    (SliceCleaned goEnv 0 50 "cause"
      (mkWorld [] [mkUnit 10 1, mkUnit 20 2, mkUnit 30 100] [] [])).world.rejected
      = [withOrigin "cause" (mkUnit 30 100)] := by
  decide!

/-- C3 (Complete invariant), evaluated on three samples at instants 0, 10, 20 with values
1, 4, 9 and zero deltas: `Complete` returns normally, the middle sample gets the deltas 10
and 3, and the last sample keeps the deltas 0 and 0 instead of 10 and 5. -/
theorem C3_complete_skips_last_sample :
    (Complete goEnv (mkWorld [] [mkUnit 0 1, mkUnit 10 4, mkUnit 20 9] [] []).heap
      (mkWorld [] [mkUnit 0 1, mkUnit 10 4, mkUnit 20 9] [] []).tsc.Cleaned).1 = Status.ok ∧
    (mkWorld [] [mkUnit 0 1, mkUnit 10 4, mkUnit 20 9] [] []).tsc.Cleaned.DataSeries.view
      (Complete goEnv (mkWorld [] [mkUnit 0 1, mkUnit 10 4, mkUnit 20 9] [] []).heap
        (mkWorld [] [mkUnit 0 1, mkUnit 10 4, mkUnit 20 9] [] []).tsc.Cleaned).2.1
      = [⟨0, 0, 1, 0, ""⟩, ⟨10, 10, 4, 3, ""⟩, ⟨20, 0, 9, 0, ""⟩] := by
  decide!

/-- C4 (aggregation correctness), evaluated on the claim's own input.  Cleaned holds the
values 10, 20, 30 at `t0`, `t0+1s`, `t0+2s`, the frequency is `5s` and the rule `avg`:
`Downsampling` returns normally with one bucket, at `t0+5s`, whose value is 15, the mean of
10 and 20; the last sample is not read. -/
theorem C4_downsampling_avg_leaves_last_sample_out :
    (Downsampling goEnv 10 "5s" "avg"
      (mkWorld [] [mkUnit t0 10, mkUnit (t0 + second) 20, mkUnit (t0 + 2 * second) 30]
        [] [])).status = Status.ok ∧
    (Downsampling goEnv 10 "5s" "avg"
      (mkWorld [] [mkUnit t0 10, mkUnit (t0 + second) 20, mkUnit (t0 + 2 * second) 30]
        [] [])).world.resampled = [mkUnit (t0 + 5 * second) 15] := by
  decide!

/-- C5 (coverage and gap marking), evaluated on the claim's own input.  Cleaned holds the
value 5 at `t0` and at `t0+20s`, the frequency is `5s` and the rule `last`: `Downsampling`
returns normally with one sample, of value 5 at `t0+5s`, and not with the five samples
5, Nihil, Nihil, Nihil, 5. -/
theorem C5_downsampling_stops_before_last_sample :
    (Downsampling goEnv 10 "5s" "last"
      (mkWorld [] [mkUnit t0 5, mkUnit (t0 + 20 * second) 5] [] [])).status = Status.ok ∧
    (Downsampling goEnv 10 "5s" "last"
      (mkWorld [] [mkUnit t0 5, mkUnit (t0 + 20 * second) 5] [] [])).world.resampled
      = [mkUnit (t0 + 5 * second) 5] := by
  decide!

/-- C6 (Original is never mutated), evaluated on a container whose Original holds the
values 100, 1, 2 at instants 30, 10, 20 and whose Cleaned was initialised by
`ResetCleanedSeries`: the state is well-formed, `SliceCleaned` with bounds 0 and 50 returns
normally, and Original, which shares its array with Cleaned, is then in another order and
has a sample with other deltas. -/
theorem C6_slice_after_reset_rewrites_original :
    (ResetCleanedSeries (mkWorld [mkUnit 30 100, mkUnit 10 1, mkUnit 20 2] [] [] [])).wf ∧
    (ResetCleanedSeries (mkWorld [mkUnit 30 100, mkUnit 10 1, mkUnit 20 2] [] [] [])).original
      = [mkUnit 30 100, mkUnit 10 1, mkUnit 20 2] ∧
    (SliceCleaned goEnv 0 50 "cause"
      (ResetCleanedSeries (mkWorld [mkUnit 30 100, mkUnit 10 1, mkUnit 20 2] [] [] []))).status
      = Status.ok ∧
    (SliceCleaned goEnv 0 50 "cause"
      (ResetCleanedSeries (mkWorld [mkUnit 30 100, mkUnit 10 1, mkUnit 20 2] [] [] []))).world.original
      = [mkUnit 10 1, ⟨20, 10, 2, 1, ""⟩, mkUnit 30 100] := by
  decide!


/-- C7 (Rejected is append-only).  For every lawful library, every well-formed state and every
operation of the container, whatever the run's status, the Rejected samples before the
operation are an initial segment of the Rejected samples after it. -/
theorem C7_rejected_append_only (E : Env) (hE : E.Lawful) (op : Op) (w : World) (hw : w.wf) :
    w.rejected <+: (op.run E w).world.rejected := by
  cases op with
  | ResetCleanedSeries => exact List.prefix_refl _
  | DeviceLimitsCleaning now min max =>
    show _ <+: (SliceCleaned E min max _ w).world.rejected
    rw [SliceCleaned_rejected E hE min max _ w hw]
    exact List.prefix_append _ _
  | PercCleaning now perc =>
    obtain ⟨hw1, hr1⟩ := sortMeas_wf E hE w hw
    show _ <+: (PercCleaning E now perc w).world.rejected
    unfold PercCleaning
    dsimp only
    split
    · rw [SliceCleaned_rejected E hE _ _ _ _ hw1, hr1]
      exact List.prefix_append _ _
    · rw [hr1]
  | ZscoreCleaning now lvl =>
    obtain ⟨hw1, hr1⟩ := sortMeas_wf E hE w hw
    show _ <+: (ZscoreCleaning E now lvl w).world.rejected
    unfold ZscoreCleaning
    dsimp only
    rw [SliceCleaned_rejected E hE _ _ _ _ hw1, hr1]
    exact List.prefix_append _ _
  | SliceCleaned min max cause =>
    show _ <+: (SliceCleaned E min max cause w).world.rejected
    rw [SliceCleaned_rejected E hE min max cause w hw]
    exact List.prefix_append _ _
  | Downsampling fuel freqq stat =>
    show _ <+: (Downsampling E fuel freqq stat w).world.rejected
    rw [(Downsampling_refines E hE fuel freqq stat w hw).2.2.2.1]

/-- C7 at a concrete state: Rejected holds one sample of an earlier pass, Cleaned the values
1, 2 and 100, and the operation is `SliceCleaned` with bounds 0 and 50. -/
theorem C7_rejected_append_only_witness :
    goEnv.Lawful ∧
    (mkWorld [] [mkUnit 10 1, mkUnit 20 2, mkUnit 30 100] []
      [withOrigin "earlier" (mkUnit 5 77)]).wf ∧
    (mkWorld [] [mkUnit 10 1, mkUnit 20 2, mkUnit 30 100] []
      [withOrigin "earlier" (mkUnit 5 77)]).rejected <+:
      ((Op.SliceCleaned 0 50 "cause").run goEnv
        (mkWorld [] [mkUnit 10 1, mkUnit 20 2, mkUnit 30 100] []
          [withOrigin "earlier" (mkUnit 5 77)])).world.rejected :=
  ⟨goEnv_lawful, by decide,
    C7_rejected_append_only goEnv goEnv_lawful (Op.SliceCleaned 0 50 "cause") _ (by decide)⟩

/-- C8 (audit entries are genuine outliers).  For every lawful library, every well-formed
state and every pass `SliceCleaned(min, max, cause)`, whatever the run's status, Rejected
after the pass is Rejected before it followed by appended samples, and each appended sample
is a sample of the Cleaned series before the pass whose value is below `min` or above `max`,
with all its fields unchanged but `Origin`, which is the cause. -/
theorem C8_rejected_are_outliers (E : Env) (hE : E.Lawful) (min max : ℚ) (cause : String)
    (w : World) (hw : w.wf) :
    ∃ added, (SliceCleaned E min max cause w).world.rejected = w.rejected ++ added ∧
      ∀ r ∈ added, ∃ c ∈ w.cleaned, (c.Meas < min ∨ c.Meas > max) ∧
        r = { c with Origin := cause } := by
  refine ⟨_, SliceCleaned_rejected E hE min max cause w hw, ?_⟩
  intro r hr
  obtain ⟨c, hc, rfl⟩ := List.mem_map.1 hr
  have hsub : ∀ d ∈ E.sort measLess w.cleaned, d ∈ w.cleaned :=
    fun d hd => (hE.sort_perm measLess w.cleaned).subset hd
  rcases List.mem_append.1 hc with h | h
  · refine ⟨c, hsub c (List.mem_of_mem_take (List.takeWhile_subset _ h)), Or.inl ?_, rfl⟩
    simpa using List.mem_takeWhile_imp h
  · refine ⟨c, hsub c (List.mem_reverse.1 (List.takeWhile_subset _ h)), Or.inr ?_, rfl⟩
    simpa using List.mem_takeWhile_imp h

/-- C8 at a concrete state: Cleaned holds the values 1, 2 and 100, the bounds are 0 and
50. -/
theorem C8_rejected_are_outliers_witness :
    goEnv.Lawful ∧ (mkWorld [] [mkUnit 10 1, mkUnit 20 2, mkUnit 30 100] [] []).wf ∧
    ∃ added, (SliceCleaned goEnv 0 50 "cause"
        (mkWorld [] [mkUnit 10 1, mkUnit 20 2, mkUnit 30 100] [] [])).world.rejected =
        (mkWorld [] [mkUnit 10 1, mkUnit 20 2, mkUnit 30 100] [] []).rejected ++ added ∧
      ∀ r ∈ added, ∃ c ∈ (mkWorld [] [mkUnit 10 1, mkUnit 20 2, mkUnit 30 100] [] []).cleaned,
        (c.Meas < 0 ∨ c.Meas > 50) ∧ r = { c with Origin := "cause" } :=
  ⟨goEnv_lawful, by decide, C8_rejected_are_outliers goEnv goEnv_lawful 0 50 "cause" _ (by decide)⟩

/-- C9 (reset semantics).  In every state, after `ResetCleanedSeries` the Cleaned series is
the Original series (the same struct, so the same samples in the same order), Resampled has
length zero and shows no sample, Rejected is unchanged, and so is the heap. -/
theorem C9_reset_semantics (w : World) :
    (ResetCleanedSeries w).tsc.Cleaned = w.tsc.Original ∧
    (ResetCleanedSeries w).cleaned = w.original ∧
    (ResetCleanedSeries w).cleaned = (ResetCleanedSeries w).original ∧
    (ResetCleanedSeries w).tsc.Resampled.DataSeries.len = 0 ∧
    (ResetCleanedSeries w).resampled = [] ∧
    (ResetCleanedSeries w).tsc.Rejected = w.tsc.Rejected ∧
    (ResetCleanedSeries w).rejected = w.rejected := by
  refine ⟨rfl, rfl, rfl, rfl, ?_, rfl, rfl⟩
  simp [World.resampled, ResetCleanedSeries, Reset, Slice.view]

/-! ## The running mean and `Tmean` -/

theorem meanFold_spec (xs : List ℚ) :
    ∀ (m : ℚ) (k : Nat),
      (xs.foldl (fun (p : ℚ × Nat) x => (p.1 + (x - p.1) / ((p.2 : ℚ) + 1), p.2 + 1)) (m, k)).2
        = k + xs.length ∧
      (xs.foldl (fun (p : ℚ × Nat) x => (p.1 + (x - p.1) / ((p.2 : ℚ) + 1), p.2 + 1)) (m, k)).1
        * ((k : ℚ) + xs.length) = m * k + xs.sum := by
  induction xs with
  | nil => intro m k; simp
  | cons x xs ih =>
    intro m k
    obtain ⟨h1, h2⟩ := ih (m + (x - m) / ((k : ℚ) + 1)) (k + 1)
    simp only [List.foldl_cons, List.length_cons, List.sum_cons]
    refine ⟨by rw [h1]; omega, ?_⟩
    have hk : ((k : ℚ) + 1) ≠ 0 := by positivity
    push_cast at h2 ⊢
    rw [show (k : ℚ) + ((xs.length : ℚ) + 1) = (k : ℚ) + 1 + xs.length by ring, h2]
    field_simp
    ring

theorem tmeanFold_spec (obs : List ℚ) :
    ∀ (s c : ℚ),
      obs.foldl (fun (p : ℚ × ℚ) value =>
        (p.1 + value, if value ≠ Nihil then p.2 + 1 else p.2)) (s, c)
      = (s + obs.sum, c + ((obs.filter (fun v => decide (v ≠ Nihil))).length : ℚ)) := by
  induction obs with
  | nil => intro s c; simp
  | cons x obs ih =>
    intro s c
    rw [List.foldl_cons, ih]
    by_cases hx : x ≠ Nihil
    · simp [hx, List.filter_cons]; constructor <;> ring
    · simp [hx, List.filter_cons]; ring

/-- C19 (running mean).  For every list `xs`, `Mean xs` is `Nihil` when `xs` is empty and the
sum of `xs` divided by its length otherwise, in exact arithmetic. -/
theorem C19_mean_is_arithmetic_mean (xs : List ℚ) :
    Mean xs = if xs = [] then Nihil else xs.sum / (xs.length : ℚ) := by
  unfold Mean
  by_cases h : xs = []
  · subst h; simp
  · have hl : xs.length ≠ 0 := by simpa using h
    rw [if_neg hl, if_neg h]
    have h2 := (meanFold_spec xs 0 0).2
    have hq : (xs.length : ℚ) ≠ 0 := by exact_mod_cast hl
    rw [eq_div_iff hq]
    simpa using h2

/-- C15 (empty population).  For every list `obs`, `Tmean obs` is the error exactly when
every element of `obs` is `Nihil` (the empty list included); otherwise it returns the count
`c` of the elements other than `Nihil` and the sum of all elements divided by `c`. -/
theorem C15_tmean_error_iff_all_nihil (obs : List ℚ) :
    (Tmean obs = none ↔ ∀ v ∈ obs, v = Nihil) ∧
    Tmean obs =
      if ∀ v ∈ obs, v = Nihil then none
      else some (obs.sum / ((obs.filter (fun v => decide (v ≠ Nihil))).length : ℚ),
        ((obs.filter (fun v => decide (v ≠ Nihil))).length : ℚ)) := by
  have key : Tmean obs =
      if ∀ v ∈ obs, v = Nihil then none
      else some (obs.sum / ((obs.filter (fun v => decide (v ≠ Nihil))).length : ℚ),
        ((obs.filter (fun v => decide (v ≠ Nihil))).length : ℚ)) := by
    unfold Tmean
    dsimp only
    rw [tmeanFold_spec]
    have hiff : ((0 : ℚ) + ((obs.filter (fun v => decide (v ≠ Nihil))).length : ℚ) = 0) ↔
        ∀ v ∈ obs, v = Nihil := by
      rw [zero_add, Nat.cast_eq_zero, List.length_eq_zero, List.filter_eq_nil_iff]
      simp
    by_cases hall : ∀ v ∈ obs, v = Nihil
    · rw [if_pos hall, if_pos (hiff.2 hall)]
    · rw [if_neg hall, if_neg (fun h => hall (hiff.1 h))]
      simp
  refine ⟨?_, key⟩
  rw [key]
  by_cases hall : ∀ v ∈ obs, v = Nihil
  · simp [hall]
  · simp only [if_neg hall]
    simp only [reduceCtorEq, false_iff]
    exact hall

/-- C17 as stated fails on a series with exactly one sample: every index that `Complete`
and `ComputeSummaryStat` use is 0, none is out of range, and both return normally. -/
theorem C17_one_sample_does_not_fault :
    (mkWorld [] [mkUnit 10 1] [] []).tsc.Cleaned.DataSeries.len = 1 ∧
    (Complete goEnv (mkWorld [] [mkUnit 10 1] [] []).heap
      (mkWorld [] [mkUnit 10 1] [] []).tsc.Cleaned).1 = Status.ok ∧
    (ComputeSummaryStat (mkWorld [] [mkUnit 10 1] [] []).heap
      (mkWorld [] [mkUnit 10 1] [] []).tsc.Cleaned).1 = Status.ok := by
  decide!

/-- C17 amended.  For every library, heap and series, `Complete` and `ComputeSummaryStat`,
whose index expressions are all checked against the length, fault on an out-of-range index
exactly when the series has zero samples, and return normally when it has at least one. -/
theorem C17_fault_iff_empty (E : Env) (h : Heap) (ts : TimeSeries) :
    (Complete E h ts).1 = (if ts.DataSeries.len = 0 then Status.panic else Status.ok) ∧
    (ComputeSummaryStat h ts).1 =
      (if ts.DataSeries.len = 0 then Status.panic else Status.ok) := by
  refine ⟨?_, ?_⟩
  · rw [Complete_eq]
    dsimp only
    by_cases hl : ts.DataSeries.len = 0
    · simp [hl]
    · simp [hl, ComputeSummaryStat_eq]
  · rw [ComputeSummaryStat_eq]
    dsimp only
    by_cases hl : ts.DataSeries.len = 0
    · simp [hl]
    · simp [hl]

/-! ## Parsing a frequency string -/

theorem parseDigits_digits (ds : List Char) (hd : ∀ c ∈ ds, '0' ≤ c ∧ c ≤ '9') :
    ∀ n, parseDigits ds n = some (ds.foldl (fun n c => 10 * n + (c.toNat - 48)) n) := by
  induction ds with
  | nil => intro n; rfl
  | cons c cs ih =>
    intro n
    unfold parseDigits
    rw [if_pos (hd c (List.mem_cons_self _ _)), ih (fun d hd1 => hd d (List.mem_cons_of_mem _ hd1))]
    rfl

theorem clamp64_of_range (x : Int) (h1 : -9223372036854775808 ≤ x)
    (h2 : x ≤ 9223372036854775807) : clamp64 x = x := by
  unfold clamp64
  rw [min_eq_left h2, max_eq_right h1]

theorem wrap64_of_range (x : Int) (h1 : -9223372036854775808 ≤ x)
    (h2 : x ≤ 9223372036854775807) : wrap64 x = x := by
  unfold wrap64
  omega

/-- `Atoi` on a non-empty run of digits is its magnitude, saturated. -/
theorem Atoi_digits (ds : List Char) (hne : ds ≠ []) (hd : ∀ c ∈ ds, '0' ≤ c ∧ c ≤ '9') :
    Atoi ds = clamp64 (digitsValue ds) := by
  cases ds with
  | nil => exact absurd rfl hne
  | cons c cs =>
    have hc := (hd c (List.mem_cons_self _ _)).1
    have h1 : c ≠ '-' := by rintro rfl; exact absurd hc (by decide)
    have h2 : c ≠ '+' := by rintro rfl; exact absurd hc (by decide)
    unfold Atoi
    dsimp only
    rw [if_neg h1, if_neg h2, parseDigits_digits _ hd]
    rfl

theorem InterpretDurationParam_concat (ds : List Char) (u : Char) :
    InterpretDurationParam (String.mk (ds ++ [u])) = some (Atoi ds, u) := by
  unfold InterpretDurationParam
  simp

/-- C14 as stated fails.  A magnitude whose duration exceeds `int64` wraps: with
`9223372037s` the start moves back instead of advancing by 9223372037 seconds; a magnitude
above `int64` is saturated by `InterpretDurationParam`; and with `1d` the start is returned
unchanged instead of advanced by one day. -/
theorem C14_large_magnitude_wraps :
    AddDurationParam t0 "9223372037s" = some (t0 - 9223372036709551616) ∧
    InterpretDurationParam "9223372036854775808s" = some (9223372036854775807, 's') ∧
    AddDurationParam t0 "1d" = some t0 := by
  decide!

/-- C14 amended.  For every start time and every frequency string made of one or more
digits of magnitude `N` followed by one byte `u`: `InterpretDurationParam` returns `(N, u)`
when `N` fits in `int64`; `AddDurationParam` returns the start advanced by `N` seconds,
minutes or hours for `u` equal to `s`, `m` or `h` when that duration fits in a
`time.Duration`, and the start unchanged for every `u` other than `s`, `m`, `h` and `d`. -/
theorem C14_frequency_grammar (start : Int) (ds : List Char) (u : Char) (hne : ds ≠ [])
    (hd : ∀ c ∈ ds, '0' ≤ c ∧ c ≤ '9') :
    ((digitsValue ds : Int) ≤ maxInt64 →
      InterpretDurationParam (String.mk (ds ++ [u])) = some ((digitsValue ds : Int), u)) ∧
    (u = 's' → second * (digitsValue ds : Int) ≤ maxInt64 →
      AddDurationParam start (String.mk (ds ++ [u])) =
        some (start + second * (digitsValue ds : Int))) ∧
    (u = 'm' → minute * (digitsValue ds : Int) ≤ maxInt64 →
      AddDurationParam start (String.mk (ds ++ [u])) =
        some (start + minute * (digitsValue ds : Int))) ∧
    (u = 'h' → hour * (digitsValue ds : Int) ≤ maxInt64 →
      AddDurationParam start (String.mk (ds ++ [u])) =
        some (start + hour * (digitsValue ds : Int))) ∧
    (u ≠ 's' → u ≠ 'm' → u ≠ 'h' → u ≠ 'd' →
      AddDurationParam start (String.mk (ds ++ [u])) = some start) := by
  have hN : (0 : Int) ≤ (digitsValue ds : Int) := Int.natCast_nonneg _
  have hI := InterpretDurationParam_concat ds u
  rw [Atoi_digits ds hne hd] at hI
  unfold maxInt64 second minute hour
  refine ⟨?_, ?_, ?_, ?_, ?_⟩
  · intro hle
    rw [hI, clamp64_of_range _ (by omega) hle]
  · rintro rfl hle
    unfold AddDurationParam
    rw [hI, clamp64_of_range _ (by omega) (by omega)]
    simp only [if_true, timeAdd, second]
    rw [wrap64_of_range _ (by omega) hle]
  · rintro rfl hle
    unfold AddDurationParam
    rw [hI, clamp64_of_range _ (by omega) (by omega)]
    simp only [if_true, timeAdd, minute, show ('m' = 's') = False by decide, if_false]
    rw [wrap64_of_range _ (by omega) hle]
  · rintro rfl hle
    unfold AddDurationParam
    rw [hI, clamp64_of_range _ (by omega) (by omega)]
    simp only [if_true, timeAdd, hour, show ('h' = 's') = False by decide,
      show ('h' = 'm') = False by decide, if_false]
    rw [wrap64_of_range _ (by omega) hle]
  · intro h1 h2 h3 _
    unfold AddDurationParam
    rw [hI]
    simp only [if_neg h1, if_neg h2, if_neg h3]

/-- C14 amended, at the frequency `15m`: the hypotheses hold, `InterpretDurationParam`
returns 15 and `m`, and `AddDurationParam` advances `t0` by 15 minutes. -/
theorem C14_frequency_grammar_witness :
    (['1', '5'] : List Char) ≠ [] ∧ (∀ c ∈ (['1', '5'] : List Char), '0' ≤ c ∧ c ≤ '9') ∧
    (digitsValue ['1', '5'] : Int) = 15 ∧ minute * (digitsValue ['1', '5'] : Int) ≤ maxInt64 ∧
    InterpretDurationParam (String.mk (['1', '5'] ++ ['m'])) =
      some ((digitsValue ['1', '5'] : Int), 'm') ∧
    AddDurationParam t0 (String.mk (['1', '5'] ++ ['m'])) =
      some (t0 + minute * (digitsValue ['1', '5'] : Int)) :=
  ⟨by decide, by decide, by decide, by decide,
    (C14_frequency_grammar t0 ['1', '5'] 'm' (by decide) (by decide)).1 (by decide),
    (C14_frequency_grammar t0 ['1', '5'] 'm' (by decide) (by decide)).2.2.1 rfl (by decide)⟩

/-- C18 (a pass never increases Cleaned), evaluated on a container whose Original was built
by three calls of `AddDataUnit` (values 1, 2, 3; `append` leaves capacity 4) and whose
Cleaned was initialised by `ResetCleanedSeries`: the state is well-formed, Cleaned has three
samples, no value is outside the bounds 0 and 50, `SliceCleaned` returns normally, and Cleaned
then has four samples: the slice expression reaches one cell past the length and brings in
the zero sample of the spare capacity. -/
theorem C18_pass_without_high_outlier_adds_a_sample :
    (ResetCleanedSeries (ingest goEnv [mkUnit 10 1, mkUnit 20 2, mkUnit 30 3])).wf ∧
    (ResetCleanedSeries (ingest goEnv [mkUnit 10 1, mkUnit 20 2, mkUnit 30 3])).cleaned
      = [mkUnit 10 1, mkUnit 20 2, mkUnit 30 3] ∧
    (ResetCleanedSeries
      (ingest goEnv [mkUnit 10 1, mkUnit 20 2, mkUnit 30 3])).tsc.Cleaned.DataSeries.cap = 4 ∧
    (SliceCleaned goEnv 0 50 "cause"
      (ResetCleanedSeries (ingest goEnv [mkUnit 10 1, mkUnit 20 2, mkUnit 30 3]))).status
      = Status.ok ∧
    (SliceCleaned goEnv 0 50 "cause"
      (ResetCleanedSeries (ingest goEnv [mkUnit 10 1, mkUnit 20 2, mkUnit 30 3]))).world.cleaned
      = [DataUnit.zero, ⟨10, 10, 1, 1, ""⟩, ⟨20, 10, 2, 1, ""⟩, mkUnit 30 3] := by
  decide!

/-! ## A bucket edge that does not advance -/

/-- With a step that does not advance the edge, the gap scan never ends once it has
started. -/
theorem gapEmit_diverges (freqq : String) (xs : List DataUnit) (i : Nat)
    (hstep : ∀ m, ∃ m1, AddDurationParam m freqq = some m1 ∧ m1 ≤ m)
    (hi : i + 2 < xs.length) :
    ∀ (f : Nat) (st : Emit), st.mainant < (xs.getD (i + 1) DataUnit.zero).Chron →
      (gapEmit freqq xs i f st).status = Status.loops := by
  intro f
  induction f with
  | zero =>
    intro st hm
    unfold gapEmit
    rw [if_pos ⟨hi, hm⟩]
  | succ f ih =>
    intro st hm
    unfold gapEmit
    rw [if_pos ⟨hi, hm⟩]
    obtain ⟨m1, h1, h2⟩ := hstep st.mainant
    dsimp only
    rw [h1]
    exact ih _ (lt_of_le_of_lt h2 hm)

/-- With a step that does not advance the edge, at least three samples and a first edge at
or before the first sample and before the second, the main loop never ends. -/
theorem mainEmit_diverges (freqq stat : String) (xs : List DataUnit)
    (hstep : ∀ m, ∃ m1, AddDurationParam m freqq = some m1 ∧ m1 ≤ m)
    (hlen : 3 ≤ xs.length) (st : Emit)
    (h0 : st.mainant ≤ (xs.getD 0 DataUnit.zero).Chron)
    (h1 : st.mainant < (xs.getD 1 DataUnit.zero).Chron) (f : Nat) :
    (mainEmit freqq stat xs f 0 st).status = Status.loops := by
  cases f with
  | zero =>
    unfold mainEmit
    rw [if_pos (by omega)]
  | succ f =>
    unfold mainEmit
    rw [if_pos (by omega)]
    have hc : collect (fun j => xs.getD j DataUnit.zero) st.mainant (xs.length - 1 - 0) 0 []
        = (0, []) := by
      obtain ⟨k, hk⟩ : ∃ k, xs.length - 1 - 0 = k + 1 := ⟨xs.length - 2, by omega⟩
      rw [hk]
      unfold collect
      rw [if_neg (not_lt.2 h0)]
    dsimp only
    rw [hc]
    obtain ⟨m1, e1, e2⟩ := hstep st.mainant
    rw [e1]
    dsimp only
    have hg := gapEmit_diverges freqq xs 0 hstep (by omega) f
      ⟨Status.ok, st.out ++ [bucketUnit stat st.mainant []], m1⟩ (lt_of_le_of_lt e2 h1)
    rw [if_neg (by rw [hg]; decide)]
    exact hg

/-- C13 (termination), evaluated on the claim's own witness shape: Cleaned holds three
samples at `t0`, `t0+1s`, `t0+2s` and the frequency is `1d`.  Whatever the fuel,
`Downsampling` does not return: `AddDurationParam` has no case for `d`, the bucket edge
stays one day before `t0` and the gap scan emits samples for ever. -/
theorem C13_downsampling_1d_never_returns (fuel : Nat) :
    (Downsampling goEnv fuel "1d" "avg"
      (mkWorld [] [mkUnit t0 10, mkUnit (t0 + second) 20, mkUnit (t0 + 2 * second) 30]
        [] [])).status = Status.loops := by
  rw [(Downsampling_refines goEnv goEnv_lawful fuel "1d" "avg" _ (mkWorld_wf _ _ _ _)).1]
  have hsort : goEnv.sort chronLess
      (mkWorld [] [mkUnit t0 10, mkUnit (t0 + second) 20, mkUnit (t0 + 2 * second) 30]
        [] []).cleaned
      = [mkUnit t0 10, mkUnit (t0 + second) 20, mkUnit (t0 + 2 * second) 30] := by decide!
  have hI : InterpretDurationParam "1d" = some (1, 'd') := by decide!
  have hstep : ∀ m, ∃ m1, AddDurationParam m "1d" = some m1 ∧ m1 ≤ m := by
    intro m
    refine ⟨m, ?_, le_refl _⟩
    unfold AddDurationParam
    rw [hI]
    rfl
  have hm0 : (roundedStartTime t0 "1d").bind (AddDurationParam · "1d")
      = some (t0 - 24 * hour) := by decide!
  rw [hsort]
  unfold resample
  rw [hI]
  dsimp only
  rw [if_neg (by decide)]
  have hget : ([mkUnit t0 10, mkUnit (t0 + second) 20, mkUnit (t0 + 2 * second) 30].getD 0
      DataUnit.zero).Chron = t0 := rfl
  rw [hget, hm0]
  exact mainEmit_diverges "1d" "avg" _ hstep (by decide) _ (by decide) (by decide) fuel

/-! ## A regular frequency advances the bucket edge by its duration -/

theorem Regular.pos {freqq : String} {f : Int} (h : Regular freqq f) : 0 < f := by
  obtain ⟨n, u, _, hu, hn, hf, _⟩ := h
  rw [hf]
  rcases hu with rfl | rfl | rfl
  · exact Int.mul_pos (by decide) hn
  · exact Int.mul_pos (by decide) hn
  · exact Int.mul_pos (by decide) hn

theorem Regular.add {freqq : String} {f : Int} (h : Regular freqq f) (m : Int) :
    AddDurationParam m freqq = some (m + f) := by
  have hpos := h.pos
  obtain ⟨n, u, hI, hu, hn, hf, hle⟩ := h
  unfold maxInt64 at hle
  unfold AddDurationParam
  rw [hI]
  rcases hu with rfl | rfl | rfl
  · have e : unitNanos 's' = second := rfl
    rw [e] at hf
    simp only [if_true, timeAdd]
    rw [← hf, wrap64_of_range _ (by omega) hle]
  · have e : unitNanos 'm' = minute := rfl
    rw [e] at hf
    simp only [show ('m' = 's') = False by decide, if_false, if_true, timeAdd]
    rw [← hf, wrap64_of_range _ (by omega) hle]
  · have e : unitNanos 'h' = hour := rfl
    rw [e] at hf
    simp only [show ('h' = 's') = False by decide, show ('h' = 'm') = False by decide,
      if_false, if_true, timeAdd]
    rw [← hf, wrap64_of_range _ (by omega) hle]

theorem Regular.start {freqq : String} {f : Int} (h : Regular freqq f) (t : Int) :
    (roundedStartTime t freqq).bind (AddDurationParam · freqq) = some (timeTruncate t f + f) := by
  have hadd := h.add
  have hpos := h.pos
  obtain ⟨n, u, hI, hu, hn, hf, hle⟩ := h
  unfold maxInt64 at hle
  have hr : roundedStartTime t freqq = some (timeTruncate t f) := by
    unfold InterpretDurationParam at hI
    unfold roundedStartTime
    cases hl : freqq.data.getLast? with
    | none => rw [hl] at hI; exact absurd hI (by simp)
    | some per =>
      rw [hl] at hI
      simp only [Option.some.injEq, Prod.mk.injEq] at hI
      obtain ⟨hn1, hu1⟩ := hI
      subst hu1
      dsimp only
      rw [hn1]
      rcases hu with rfl | rfl | rfl
      · have e : unitNanos 's' = second := rfl
        rw [e] at hf
        simp only [show ('s' = 'm') = False by decide, if_false, if_true]
        rw [← hf, wrap64_of_range _ (by omega) hle]
      · have e : unitNanos 'm' = minute := rfl
        rw [e] at hf
        simp only [if_true]
        rw [← hf, wrap64_of_range _ (by omega) hle]
      · have e : unitNanos 'h' = hour := rfl
        rw [e] at hf
        simp only [show ('h' = 'm') = False by decide, show ('h' = 's') = False by decide,
          if_false, if_true]
        rw [← hf, wrap64_of_range _ (by omega) hle]
  rw [hr]
  exact hadd _

theorem Regular.interpret {freqq : String} {f : Int} (h : Regular freqq f) :
    ∃ p, InterpretDurationParam freqq = some p := by
  obtain ⟨n, u, hI, _⟩ := h
  exact ⟨_, hI⟩

/-! ## The emitted samples lie on the grid -/

theorem OnGrid.snoc {m0 f : Int} {out : List DataUnit} (h : OnGrid m0 f out) (d : DataUnit)
    (hd : d.Chron = m0 + (out.length : Int) * f) : OnGrid m0 f (out ++ [d]) := by
  intro j e he
  by_cases hj : j < out.length
  · rw [List.getElem?_append_left hj] at he
    exact h j e he
  · rw [List.getElem?_append_right (by omega)] at he
    have hj0 : j - out.length = 0 := by
      by_contra hne
      rw [List.getElem?_eq_none (by simp; omega)] at he
      exact absurd he (by simp)
    rw [hj0] at he
    simp only [List.getElem?_cons_zero, Option.some.injEq] at he
    have : j = out.length := by omega
    rw [← he, this]
    exact hd

theorem gapEmit_grid (freqq : String) (xs : List DataUnit) (i : Nat) (m0 f : Int)
    (hadd : ∀ m, AddDurationParam m freqq = some (m + f)) :
    ∀ (fuel : Nat) (st : Emit), OnGrid m0 f st.out →
      st.mainant = m0 + (st.out.length : Int) * f →
      OnGrid m0 f (gapEmit freqq xs i fuel st).out ∧
      (gapEmit freqq xs i fuel st).mainant =
        m0 + ((gapEmit freqq xs i fuel st).out.length : Int) * f := by
  intro fuel
  induction fuel with
  | zero =>
    intro st h1 h2
    unfold gapEmit
    split
    · exact ⟨h1, h2⟩
    · exact ⟨h1, h2⟩
  | succ fuel ih =>
    intro st h1 h2
    unfold gapEmit
    split
    · dsimp only
      rw [hadd]
      dsimp only
      refine ih _ (h1.snoc _ h2) ?_
      show st.mainant + f = m0 + ((st.out ++ [gapUnit st.mainant]).length : Int) * f
      rw [List.length_append, h2]
      push_cast
      simp only [List.length_singleton]
      ring
    · exact ⟨h1, h2⟩

theorem bucketUnit_chron (stat : String) (m : Int) (vec : List ℚ) :
    (bucketUnit stat m vec).Chron = m := rfl

theorem mainEmit_grid (freqq stat : String) (xs : List DataUnit) (m0 f : Int)
    (hadd : ∀ m, AddDurationParam m freqq = some (m + f)) :
    ∀ (fuel i : Nat) (st : Emit), OnGrid m0 f st.out →
      st.mainant = m0 + (st.out.length : Int) * f →
      OnGrid m0 f (mainEmit freqq stat xs fuel i st).out ∧
      (mainEmit freqq stat xs fuel i st).mainant =
        m0 + ((mainEmit freqq stat xs fuel i st).out.length : Int) * f := by
  intro fuel
  induction fuel with
  | zero =>
    intro i st h1 h2
    unfold mainEmit
    split
    · exact ⟨h1, h2⟩
    · exact ⟨h1, h2⟩
  | succ fuel ih =>
    intro i st h1 h2
    unfold mainEmit
    split
    · dsimp only
      rw [hadd]
      dsimp only
      have hg := gapEmit_grid freqq xs
        (collect (fun j => xs.getD j DataUnit.zero) st.mainant (xs.length - 1 - i) i []).1
        m0 f hadd fuel
        ⟨Status.ok, st.out ++ [bucketUnit stat st.mainant
          (collect (fun j => xs.getD j DataUnit.zero) st.mainant (xs.length - 1 - i) i []).2],
          st.mainant + f⟩
        (h1.snoc _ h2)
        (by
          show st.mainant + f = m0 + ((st.out ++ [_]).length : Int) * f
          rw [List.length_append, h2]
          push_cast
          simp only [List.length_singleton]
          ring)
      split
      · exact ih _ _ hg.1 hg.2
      · exact hg
    · exact ⟨h1, h2⟩

/-! ## An unrecognized rule emits `Nihil` only -/

theorem bucketUnit_unknown (stat : String) (m : Int) (vec : List ℚ) (h1 : stat ≠ "avg")
    (h2 : stat ≠ "max") (h3 : stat ≠ "min") (h4 : stat ≠ "last") :
    (bucketUnit stat m vec).Meas = Nihil := by
  unfold bucketUnit
  simp [h1, h2, h3, h4]

theorem gapEmit_nihil (freqq : String) (xs : List DataUnit) (i : Nat) :
    ∀ (fuel : Nat) (st : Emit), (∀ d ∈ st.out, d.Meas = Nihil) →
      ∀ d ∈ (gapEmit freqq xs i fuel st).out, d.Meas = Nihil := by
  intro fuel
  induction fuel with
  | zero =>
    intro st h
    unfold gapEmit
    split
    · exact h
    · exact h
  | succ fuel ih =>
    intro st h
    have h1 : ∀ d ∈ st.out ++ [gapUnit st.mainant], d.Meas = Nihil := by
      intro d hd
      rcases List.mem_append.1 hd with hd | hd
      · exact h d hd
      · rw [List.mem_singleton.1 hd]; rfl
    unfold gapEmit
    split
    · dsimp only
      cases AddDurationParam st.mainant freqq with
      | none => exact h1
      | some m => exact ih _ h1
    · exact h

theorem mainEmit_nihil (freqq stat : String) (xs : List DataUnit) (h1 : stat ≠ "avg")
    (h2 : stat ≠ "max") (h3 : stat ≠ "min") (h4 : stat ≠ "last") :
    ∀ (fuel i : Nat) (st : Emit), (∀ d ∈ st.out, d.Meas = Nihil) →
      ∀ d ∈ (mainEmit freqq stat xs fuel i st).out, d.Meas = Nihil := by
  intro fuel
  induction fuel with
  | zero =>
    intro i st h
    unfold mainEmit
    split
    · exact h
    · exact h
  | succ fuel ih =>
    intro i st h
    have hb : ∀ vec, ∀ d ∈ st.out ++ [bucketUnit stat st.mainant vec], d.Meas = Nihil := by
      intro vec d hd
      rcases List.mem_append.1 hd with hd | hd
      · exact h d hd
      · rw [List.mem_singleton.1 hd]; exact bucketUnit_unknown stat _ _ h1 h2 h3 h4
    unfold mainEmit
    split
    · dsimp only
      cases AddDurationParam st.mainant freqq with
      | none => exact hb _
      | some m =>
        dsimp only
        have hg := gapEmit_nihil freqq xs
          (collect (fun j => xs.getD j DataUnit.zero) st.mainant (xs.length - 1 - i) i []).1
          fuel ⟨Status.ok, st.out ++ [bucketUnit stat st.mainant
            (collect (fun j => xs.getD j DataUnit.zero) st.mainant (xs.length - 1 - i) i []).2],
            m⟩ (hb _)
        split
        · exact ih _ _ hg
        · exact hg
    · exact h

/-! ## With a regular frequency the loops of `Downsampling` end -/

theorem collect_ge (rd : Nat → DataUnit) (m : Int) :
    ∀ (k i : Nat) (vec : List ℚ), i ≤ (collect rd m k i vec).1 := by
  intro k
  induction k with
  | zero => intro i vec; exact le_refl _
  | succ k ih =>
    intro i vec
    unfold collect
    split
    · exact le_trans (Nat.le_succ i) (ih (i + 1) _)
    · exact le_refl _

theorem gapEmit_terminates (freqq : String) (xs : List DataUnit) (i : Nat) (f : Int)
    (hf : 0 < f) (hadd : ∀ m, AddDurationParam m freqq = some (m + f)) :
    ∀ (fuel : Nat) (st : Emit), st.status = Status.ok →
      (i + 2 < xs.length →
        ((xs.getD (i + 1) DataUnit.zero).Chron - st.mainant).toNat ≤ fuel) →
      (gapEmit freqq xs i fuel st).status = Status.ok ∧
      st.mainant ≤ (gapEmit freqq xs i fuel st).mainant := by
  intro fuel
  induction fuel with
  | zero =>
    intro st hs hb
    unfold gapEmit
    split
    · rename_i hc
      have := hb hc.1
      omega
    · exact ⟨hs, le_refl _⟩
  | succ fuel ih =>
    intro st hs hb
    unfold gapEmit
    split
    · rename_i hc
      dsimp only
      rw [hadd]
      dsimp only
      have hb1 := hb hc.1
      obtain ⟨r1, r2⟩ := ih ⟨Status.ok, st.out ++ [gapUnit st.mainant], st.mainant + f⟩ rfl
        (fun _ => by
          show ((xs.getD (i + 1) DataUnit.zero).Chron - (st.mainant + f)).toNat ≤ fuel
          omega)
      refine ⟨r1, le_trans ?_ r2⟩
      show st.mainant ≤ st.mainant + f
      omega
    · exact ⟨hs, le_refl _⟩

theorem mainEmit_terminates (freqq stat : String) (xs : List DataUnit) (f m0 tmax : Int)
    (hf : 0 < f) (hadd : ∀ m, AddDurationParam m freqq = some (m + f))
    (hmax : ∀ j, j < xs.length → (xs.getD j DataUnit.zero).Chron ≤ tmax) :
    ∀ (fuel i : Nat) (st : Emit), st.status = Status.ok → m0 ≤ st.mainant →
      (xs.length - i) + (tmax - m0).toNat ≤ fuel →
      (mainEmit freqq stat xs fuel i st).status = Status.ok := by
  intro fuel
  induction fuel with
  | zero =>
    intro i st hs _ hb
    unfold mainEmit
    rw [if_neg (by omega)]
    exact hs
  | succ fuel ih =>
    intro i st hs hm hb
    unfold mainEmit
    split
    · rename_i hi
      dsimp only
      rw [hadd]
      dsimp only
      have hge := collect_ge (fun j => xs.getD j DataUnit.zero) st.mainant
        (xs.length - 1 - i) i []
      obtain ⟨r1, r2⟩ := gapEmit_terminates freqq xs
        (collect (fun j => xs.getD j DataUnit.zero) st.mainant (xs.length - 1 - i) i []).1
        f hf hadd fuel
        ⟨Status.ok, st.out ++ [bucketUnit stat st.mainant
          (collect (fun j => xs.getD j DataUnit.zero) st.mainant (xs.length - 1 - i) i []).2],
          st.mainant + f⟩ rfl
        (fun hc => by
          have := hmax _ (by omega : (collect (fun j => xs.getD j DataUnit.zero) st.mainant
            (xs.length - 1 - i) i []).1 + 1 < xs.length)
          show ((xs.getD _ DataUnit.zero).Chron - (st.mainant + f)).toNat ≤ fuel
          omega)
      rw [if_pos r1]
      refine ih _ _ r1 (le_trans ?_ r2) (by omega)
      show m0 ≤ st.mainant + f
      omega
    · exact hs

theorem exists_chron_bound (xs : List DataUnit) : ∃ tmax : Int, ∀ d ∈ xs, d.Chron ≤ tmax := by
  induction xs with
  | nil => exact ⟨0, by simp⟩
  | cons x xs ih =>
    obtain ⟨t, ht⟩ := ih
    refine ⟨max t x.Chron, ?_⟩
    intro d hd
    rcases List.mem_cons.1 hd with rfl | hd
    · exact le_max_right _ _
    · exact le_trans (ht d hd) (le_max_left _ _)

theorem getD_mem (xs : List DataUnit) (j : Nat) (hj : j < xs.length) :
    xs.getD j DataUnit.zero ∈ xs := by
  rw [List.getD_eq_getElem?_getD, List.getElem?_eq_getElem hj]
  exact List.getElem_mem _

/-- On a non-empty list and with a regular frequency, `resample` runs the main loop from the
edge `truncate(x0) + f`, where `x0` is the first timestamp. -/
theorem resample_regular (fuel : Nat) (freqq stat : String) (f : Int) (xs : List DataUnit)
    (hreg : Regular freqq f) (hne : xs ≠ []) :
    resample fuel freqq stat xs =
      ((mainEmit freqq stat xs fuel 0
          ⟨Status.ok, [], timeTruncate (xs.getD 0 DataUnit.zero).Chron f + f⟩).status,
        (mainEmit freqq stat xs fuel 0
          ⟨Status.ok, [], timeTruncate (xs.getD 0 DataUnit.zero).Chron f + f⟩).out) := by
  obtain ⟨p, hp⟩ := hreg.interpret
  unfold resample
  rw [hp]
  dsimp only
  rw [if_neg (by simpa using hne), hreg.start]

/-- With a regular frequency and enough fuel, `resample` returns normally. -/
theorem resample_terminates (freqq stat : String) (f : Int) (xs : List DataUnit)
    (hreg : Regular freqq f) (hne : xs ≠ []) :
    ∃ fuel0, ∀ fuel, fuel0 ≤ fuel → (resample fuel freqq stat xs).1 = Status.ok := by
  obtain ⟨tmax, ht⟩ := exists_chron_bound xs
  refine ⟨xs.length +
    (tmax - (timeTruncate (xs.getD 0 DataUnit.zero).Chron f + f)).toNat, ?_⟩
  intro fuel hfuel
  rw [resample_regular fuel freqq stat f xs hreg hne]
  exact mainEmit_terminates freqq stat xs f
    (timeTruncate (xs.getD 0 DataUnit.zero).Chron f + f) tmax hreg.pos hreg.add
    (fun j hj => ht _ (getD_mem xs j hj)) fuel 0 _ rfl (le_refl _)
    (by rw [Nat.sub_zero]; exact hfuel)

/-! ## The first sorted sample is the earliest -/

theorem sorted_head_earliest (E : Env) (hE : E.Lawful) (l : List DataUnit) (tmin : Int)
    (hmem : ∃ d ∈ l, d.Chron = tmin) (hmin : ∀ d ∈ l, tmin ≤ d.Chron) :
    E.sort chronLess l ≠ [] ∧ ((E.sort chronLess l).getD 0 DataUnit.zero).Chron = tmin := by
  have hp := hE.sort_perm chronLess l
  have hs := hE.sort_sorted chronLess l chronLess_asymm chronLess_trans
  obtain ⟨d, hd, hdt⟩ := hmem
  cases hxs : E.sort chronLess l with
  | nil =>
    rw [hxs] at hp
    exact absurd (hp.symm.subset hd) (by simp)
  | cons x rest =>
    rw [hxs] at hp hs
    refine ⟨by simp, ?_⟩
    show x.Chron = tmin
    apply le_antisymm
    · have hdx : d ∈ x :: rest := hp.symm.subset hd
      rcases List.mem_cons.1 hdx with rfl | hdr
      · exact le_of_eq hdt
      · have := (List.pairwise_cons.1 hs).1 d hdr
        unfold chronLess at this
        simp only [decide_eq_false_iff_not, not_lt] at this
        rw [← hdt]; exact this
    · exact hmin x (hp.subset (List.mem_cons_self _ _))

theorem OnGrid.increasing {m0 f : Int} {out : List DataUnit} (h : OnGrid m0 f out)
    (hf : 0 < f) : (out.map (·.Chron)).Pairwise (· < ·) := by
  rw [List.pairwise_iff_getElem]
  intro i j hi hj hij
  rw [List.length_map] at hi hj
  rw [List.getElem_map, List.getElem_map,
    h i _ (List.getElem?_eq_getElem hi), h j _ (List.getElem?_eq_getElem hj)]
  have : (i : Int) * f < (j : Int) * f :=
    mul_lt_mul_of_pos_right (by exact_mod_cast hij) hf
  omega

theorem OnGrid.consecutive {m0 f : Int} {out : List DataUnit} (h : OnGrid m0 f out)
    (j : Nat) (a b : DataUnit) (ha : out[j]? = some a) (hb : out[j + 1]? = some b) :
    b.Chron = a.Chron + f := by
  rw [h j a ha, h (j + 1) b hb]
  push_cast
  ring

/-- C11 as stated fails when the duration of the frequency does not fit in a
`time.Duration`.  With `9223372037s` the product wraps to a negative step: `Downsampling`
returns normally with one sample, which lies before `t0` and not at `truncate(t0, f) + f`.
With `36028797018963968s` the product wraps to zero: on three samples of instant `t0`,
`Downsampling` returns normally with two samples of the same timestamp. -/
theorem C11_wrapped_duration_breaks_grid :
    (Downsampling goEnv 10 "9223372037s" "avg"
      (mkWorld [] [mkUnit t0 1, mkUnit (t0 + second) 2] [] [])).status = Status.ok ∧
    (Downsampling goEnv 10 "9223372037s" "avg"
      (mkWorld [] [mkUnit t0 1, mkUnit (t0 + second) 2] [] [])).world.resampled
      = [mkUnit (t0 - 9223372036709551616) 0] ∧
    t0 - 9223372036709551616 < t0 ∧
    t0 < timeTruncate t0 (second * 9223372037) + second * 9223372037 ∧
    (Downsampling goEnv 10 "36028797018963968s" "avg"
      (mkWorld [] [mkUnit t0 1, mkUnit t0 2, mkUnit t0 3] [] [])).status = Status.ok ∧
    (Downsampling goEnv 10 "36028797018963968s" "avg"
      (mkWorld [] [mkUnit t0 1, mkUnit t0 2, mkUnit t0 3] [] [])).world.resampled
      = [mkUnit t0 0, mkUnit t0 0] := by
  decide!

/-- C11 amended.  For every lawful library, every well-formed state, every rule and every
frequency of positive magnitude in unit `s`, `m` or `h` whose duration `f` fits in a
`time.Duration`, with `tmin` the earliest Cleaned timestamp: with enough fuel `Downsampling`
returns normally, and whatever the fuel the Resampled sample of index `j` has timestamp
`truncate(tmin, f) + f + j * f`, so that the timestamps are strictly increasing and two
consecutive samples are exactly `f` apart. -/
theorem C11_regular_grid (E : Env) (hE : E.Lawful) (freqq stat : String) (f : Int) (w : World)
    (tmin : Int) (hw : w.wf) (hreg : Regular freqq f) (hmem : ∃ d ∈ w.cleaned, d.Chron = tmin)
    (hmin : ∀ d ∈ w.cleaned, tmin ≤ d.Chron) :
    (∃ fuel0, ∀ fuel, fuel0 ≤ fuel →
      (Downsampling E fuel freqq stat w).status = Status.ok) ∧
    ∀ fuel,
      OnGrid (timeTruncate tmin f + f) f (Downsampling E fuel freqq stat w).world.resampled ∧
      ((Downsampling E fuel freqq stat w).world.resampled.map (·.Chron)).Pairwise (· < ·) ∧
      ∀ (j : Nat) (a b : DataUnit),
        (Downsampling E fuel freqq stat w).world.resampled[j]? = some a →
        (Downsampling E fuel freqq stat w).world.resampled[j + 1]? = some b →
        b.Chron = a.Chron + f := by
  obtain ⟨hne, h0⟩ := sorted_head_earliest E hE w.cleaned tmin hmem hmin
  refine ⟨?_, ?_⟩
  · obtain ⟨fuel0, hfuel⟩ := resample_terminates freqq stat f _ hreg hne
    refine ⟨fuel0, fun fuel hle => ?_⟩
    rw [(Downsampling_refines E hE fuel freqq stat w hw).1]
    exact hfuel fuel hle
  · intro fuel
    have hgrid : OnGrid (timeTruncate tmin f + f) f
        (Downsampling E fuel freqq stat w).world.resampled := by
      rw [(Downsampling_refines E hE fuel freqq stat w hw).2.1,
        resample_regular fuel freqq stat f _ hreg hne, h0]
      exact (mainEmit_grid freqq stat _ _ f hreg.add fuel 0 _
        (fun j d hd => absurd hd (by simp)) (by simp)).1
    exact ⟨hgrid, hgrid.increasing hreg.pos, hgrid.consecutive⟩

/-- C11 amended, at a concrete state: Cleaned holds four samples out of order, 20 seconds
apart, the frequency is `5s`; `tmin` is `t0`. -/
theorem C11_regular_grid_witness :
    goEnv.Lawful ∧
    (mkWorld [] [mkUnit (t0 + 20 * second) 5, mkUnit t0 5, mkUnit (t0 + 60 * second) 5,
      mkUnit (t0 + 40 * second) 5] [] []).wf ∧
    Regular "5s" (5 * second) ∧
    (∃ d ∈ (mkWorld [] [mkUnit (t0 + 20 * second) 5, mkUnit t0 5, mkUnit (t0 + 60 * second) 5,
      mkUnit (t0 + 40 * second) 5] [] []).cleaned, d.Chron = t0) ∧
    (∀ d ∈ (mkWorld [] [mkUnit (t0 + 20 * second) 5, mkUnit t0 5, mkUnit (t0 + 60 * second) 5,
      mkUnit (t0 + 40 * second) 5] [] []).cleaned, t0 ≤ d.Chron) ∧
    (Downsampling goEnv 100 "5s" "last"
      (mkWorld [] [mkUnit (t0 + 20 * second) 5, mkUnit t0 5, mkUnit (t0 + 60 * second) 5,
        mkUnit (t0 + 40 * second) 5] [] [])).status = Status.ok ∧
    OnGrid (timeTruncate t0 (5 * second) + 5 * second) (5 * second)
      (Downsampling goEnv 100 "5s" "last"
        (mkWorld [] [mkUnit (t0 + 20 * second) 5, mkUnit t0 5, mkUnit (t0 + 60 * second) 5,
          mkUnit (t0 + 40 * second) 5] [] [])).world.resampled :=
  ⟨goEnv_lawful, mkWorld_wf _ _ _ _,
    ⟨5, 's', by decide!, Or.inl rfl, by decide, by decide, by decide⟩,
    by decide, by decide, by decide!,
    ((C11_regular_grid goEnv goEnv_lawful "5s" "last" (5 * second) _ t0 (mkWorld_wf _ _ _ _)
      ⟨5, 's', by decide!, Or.inl rfl, by decide, by decide, by decide⟩
      (by decide) (by decide)).2 100).1⟩

/-- C12 as stated fails when the duration of the frequency does not fit in a
`time.Duration`: with `9223372037s`, the rule `median` and three samples one second apart,
no amount of fuel lets `Downsampling` return, the bucket edge moves back for ever. -/
theorem C12_wrapped_duration_never_returns :
    ¬ ∃ fuel : Nat, (Downsampling goEnv fuel "9223372037s" "median"
      (mkWorld [] [mkUnit t0 10, mkUnit (t0 + second) 20, mkUnit (t0 + 2 * second) 30]
        [] [])).status = Status.ok := by
  rintro ⟨fuel, hfuel⟩
  rw [(Downsampling_refines goEnv goEnv_lawful fuel _ _ _ (mkWorld_wf _ _ _ _)).1] at hfuel
  have hsort : goEnv.sort chronLess
      (mkWorld [] [mkUnit t0 10, mkUnit (t0 + second) 20, mkUnit (t0 + 2 * second) 30]
        [] []).cleaned
      = [mkUnit t0 10, mkUnit (t0 + second) 20, mkUnit (t0 + 2 * second) 30] := by decide!
  have hI : InterpretDurationParam "9223372037s" = some (9223372037, 's') := by decide!
  have hstep : ∀ m, ∃ m1, AddDurationParam m "9223372037s" = some m1 ∧ m1 ≤ m := by
    intro m
    refine ⟨m + (-9223372036709551616), ?_, by omega⟩
    unfold AddDurationParam
    rw [hI]
    simp only [if_true, timeAdd]
    have : wrap64 (second * 9223372037) = -9223372036709551616 := by decide!
    rw [this]
  have hm0 : (roundedStartTime t0 "9223372037s").bind (AddDurationParam · "9223372037s")
      = some (t0 - 9223372036709551616) := by decide!
  rw [hsort] at hfuel
  unfold resample at hfuel
  rw [hI] at hfuel
  dsimp only at hfuel
  rw [if_neg (by decide)] at hfuel
  have hget : ([mkUnit t0 10, mkUnit (t0 + second) 20, mkUnit (t0 + 2 * second) 30].getD 0
      DataUnit.zero).Chron = t0 := rfl
  rw [hget, hm0] at hfuel
  dsimp only at hfuel
  rw [mainEmit_diverges "9223372037s" "median" _ hstep (by decide) _ (by decide) (by decide)
    fuel] at hfuel
  exact absurd hfuel (by decide)

/-- C12 amended.  For every lawful library, every well-formed state with a non-empty Cleaned
series, every frequency of positive magnitude in unit `s`, `m` or `h` whose duration fits
in a `time.Duration`, and every rule other than `avg`, `max`, `min` and `last`: with enough
fuel `Downsampling` returns normally, and every Resampled sample has the value `Nihil`. -/
theorem C12_unrecognized_rule (E : Env) (hE : E.Lawful) (freqq stat : String) (f : Int)
    (w : World) (hw : w.wf) (hreg : Regular freqq f) (hne : w.cleaned ≠ [])
    (h1 : stat ≠ "avg") (h2 : stat ≠ "max") (h3 : stat ≠ "min") (h4 : stat ≠ "last") :
    (∃ fuel0, ∀ fuel, fuel0 ≤ fuel →
      (Downsampling E fuel freqq stat w).status = Status.ok) ∧
    ∀ fuel, ∀ d ∈ (Downsampling E fuel freqq stat w).world.resampled, d.Meas = Nihil := by
  have hne1 : E.sort chronLess w.cleaned ≠ [] := by
    intro h
    have := (hE.sort_perm chronLess w.cleaned).length_eq
    rw [h] at this
    exact hne (List.length_eq_zero.1 this.symm)
  refine ⟨?_, ?_⟩
  · obtain ⟨fuel0, hfuel⟩ := resample_terminates freqq stat f _ hreg hne1
    refine ⟨fuel0, fun fuel hle => ?_⟩
    rw [(Downsampling_refines E hE fuel freqq stat w hw).1]
    exact hfuel fuel hle
  · intro fuel
    rw [(Downsampling_refines E hE fuel freqq stat w hw).2.1,
      resample_regular fuel freqq stat f _ hreg hne1]
    exact mainEmit_nihil freqq stat _ h1 h2 h3 h4 fuel 0 _ (by simp)

/-- C12 amended, at a concrete state: three samples, the frequency `5s`, the rule
`median`. -/
theorem C12_unrecognized_rule_witness :
    goEnv.Lawful ∧
    (mkWorld [] [mkUnit t0 10, mkUnit (t0 + second) 20, mkUnit (t0 + 7 * second) 30]
      [] []).wf ∧
    Regular "5s" (5 * second) ∧
    (mkWorld [] [mkUnit t0 10, mkUnit (t0 + second) 20, mkUnit (t0 + 7 * second) 30]
      [] []).cleaned ≠ [] ∧
    "median" ≠ "avg" ∧ "median" ≠ "max" ∧ "median" ≠ "min" ∧ "median" ≠ "last" ∧
    (Downsampling goEnv 100 "5s" "median"
      (mkWorld [] [mkUnit t0 10, mkUnit (t0 + second) 20, mkUnit (t0 + 7 * second) 30]
        [] [])).status = Status.ok ∧
    ∀ d ∈ (Downsampling goEnv 100 "5s" "median"
      (mkWorld [] [mkUnit t0 10, mkUnit (t0 + second) 20, mkUnit (t0 + 7 * second) 30]
        [] [])).world.resampled, d.Meas = Nihil :=
  ⟨goEnv_lawful, mkWorld_wf _ _ _ _,
    ⟨5, 's', by decide!, Or.inl rfl, by decide, by decide, by decide⟩,
    by decide, by decide, by decide, by decide, by decide, by decide!,
    (C12_unrecognized_rule goEnv goEnv_lawful "5s" "median" (5 * second) _
      (mkWorld_wf _ _ _ _) ⟨5, 's', by decide!, Or.inl rfl, by decide, by decide, by decide⟩
      (by decide) (by decide) (by decide) (by decide) (by decide)).2 100⟩

/-! ## `Complete` leaves the timestamps sorted and caches their ends -/

/-- A store that keeps the timestamp of the cell keeps the timestamps the slice shows. -/
theorem store_chron (h : Heap) (s : Slice) (i : Nat) (x : DataUnit)
    (hx : x.Chron = (s.get h i).Chron) :
    (s.view (s.store h i x)).map (·.Chron) = (s.view h).map (·.Chron) := by
  rw [store_view]
  split
  · rename_i hi
    apply List.ext_getElem?
    intro n
    rw [List.getElem?_map, List.getElem?_map, List.getElem?_set]
    by_cases e : i = n
    · subst e
      rw [if_pos rfl]
      split
      · rename_i hlt
        rw [List.getElem?_eq_getElem hlt]
        simp only [Option.map_some']
        rw [hx, get_eq_view _ _ _ hi, List.getD_eq_getElem?_getD, List.getElem?_eq_getElem hlt]
        rfl
      · rename_i hge
        rw [List.getElem?_eq_none (by omega)]
    · rw [if_neg e]
  · rfl

theorem completeStep_chron (s : Slice) (h : Heap) (i : Nat) :
    (s.view (completeStep s h i)).map (·.Chron) = (s.view h).map (·.Chron) := by
  unfold completeStep
  dsimp only
  refine (store_chron _ _ _ _ ?_).trans (store_chron _ _ _ _ ?_) <;> rfl

theorem completeLoop_chron (s : Slice) (l : List Nat) (h : Heap) :
    (s.view (l.foldl (completeStep s) h)).map (·.Chron) = (s.view h).map (·.Chron) := by
  induction l generalizing h with
  | nil => rfl
  | cons i l ih => rw [List.foldl_cons, ih, completeStep_chron]

/-- After `Complete` the series shows the timestamps of the sorted samples. -/
theorem Complete_chron (E : Env) (hE : E.Lawful) (h : Heap) (ts : TimeSeries)
    (hv : ts.DataSeries.valid h) :
    (ts.DataSeries.view (Complete E h ts).2.1).map (·.Chron) =
      (E.sort chronLess (ts.DataSeries.view h)).map (·.Chron) := by
  have h1 : ts.DataSeries.view (SortChronAsc E h ts) = E.sort chronLess (ts.DataSeries.view h) :=
    sort_view E hE chronLess h _ hv
  rw [Complete_eq]
  dsimp only
  split
  · rw [h1]
  · show (ts.DataSeries.view (List.foldl _ _ _)).map _ = _
    rw [completeLoop_chron, ← h1]
    refine (store_chron _ _ _ _ ?_).trans (store_chron _ _ _ _ ?_) <;> rfl

theorem sorted_chron (E : Env) (hE : E.Lawful) (l : List DataUnit) :
    ((E.sort chronLess l).map (·.Chron)).Pairwise (· ≤ ·) := by
  rw [List.pairwise_map]
  refine (hE.sort_sorted chronLess l chronLess_asymm chronLess_trans).imp ?_
  intro a b hab
  unfold chronLess at hab
  simpa using hab

/-- The ends of a sorted list bound it. -/
theorem sorted_ends (c : List Int) (hs : c.Pairwise (· ≤ ·)) (k : Nat) (hk : k < c.length) :
    c.getD 0 0 ≤ c.getD k 0 ∧ c.getD k 0 ≤ c.getD (c.length - 1) 0 := by
  rw [List.pairwise_iff_getElem] at hs
  have h0 : 0 < c.length := by omega
  have hl : c.length - 1 < c.length := by omega
  simp only [List.getD_eq_getElem?_getD, List.getElem?_eq_getElem h0,
    List.getElem?_eq_getElem hk, List.getElem?_eq_getElem hl, Option.getD_some]
  constructor
  · by_cases e : k = 0
    · subst e; exact le_refl _
    · exact hs 0 k h0 hk (by omega)
  · by_cases e : k = c.length - 1
    · subst e; exact le_refl _
    · exact hs k (c.length - 1) hk hl (by omega)

/-- `Complete` panics exactly on a series of length zero. -/
theorem Complete_status (E : Env) (h : Heap) (ts : TimeSeries) :
    (Complete E h ts).1 = (if ts.DataSeries.len = 0 then Status.panic else Status.ok) := by
  rw [Complete_eq]
  dsimp only
  by_cases hl : ts.DataSeries.len = 0
  · simp [hl]
  · simp [hl, ComputeSummaryStat_eq]

/-- `Complete` on a valid series with at least one sample returns normally and leaves a
summary that agrees with the samples. -/
theorem Complete_summary (E : Env) (hE : E.Lawful) (h : Heap) (ts : TimeSeries)
    (hv : ts.DataSeries.valid h) (hlen : 1 ≤ ts.DataSeries.len) :
    (Complete E h ts).1 = Status.ok ∧
    SummaryAgrees (Complete E h ts).2.2.SumStat
      ((Complete E h ts).2.2.DataSeries.view (Complete E h ts).2.1) := by
  have hst := Complete_status E h ts
  rw [if_neg (by omega)] at hst
  refine ⟨hst, ?_⟩
  rw [Complete_series]
  have hv1 := Complete_valid E hE h ts _ hv hv
  have hl := view_length _ _ hv1
  have hc := Complete_chron E hE h ts hv
  have hs : ((ts.DataSeries.view (Complete E h ts).2.1).map (·.Chron)).Pairwise (· ≤ ·) := by
    rw [hc]; exact sorted_chron E hE _
  have hsum : (Complete E h ts).2.2.SumStat.Dslen = ts.DataSeries.len ∧
      (Complete E h ts).2.2.SumStat.Chmin =
        (ts.DataSeries.get (Complete E h ts).2.1 0).Chron ∧
      (Complete E h ts).2.2.SumStat.Chmax =
        (ts.DataSeries.get (Complete E h ts).2.1 (ts.DataSeries.len - 1)).Chron := by
    rw [Complete_eq]
    dsimp only
    rw [if_neg (by omega)]
    dsimp only
    rw [ComputeSummaryStat_eq]
    dsimp only
    rw [if_neg (by omega)]
    exact ⟨rfl, rfl, rfl⟩
  obtain ⟨e1, e2, e3⟩ := hsum
  set V := ts.DataSeries.view (Complete E h ts).2.1 with hV
  have hget : ∀ k, k < ts.DataSeries.len →
      (ts.DataSeries.get (Complete E h ts).2.1 k).Chron = (V.map (·.Chron)).getD k 0 ∧
      ts.DataSeries.get (Complete E h ts).2.1 k ∈ V := by
    intro k hk
    refine ⟨?_, get_mem_view _ _ hv1 k hk⟩
    rw [get_eq_view _ _ _ hk, List.getD_eq_getElem?_getD, List.getD_eq_getElem?_getD,
      List.getElem?_map, List.getElem?_eq_getElem (by omega : k < V.length)]
    rfl
  have hmem : ∀ d ∈ V, ∃ k, k < (V.map (·.Chron)).length ∧ (V.map (·.Chron)).getD k 0 = d.Chron := by
    intro d hd
    obtain ⟨k, hk, rfl⟩ := List.getElem_of_mem hd
    refine ⟨k, by simpa using hk, ?_⟩
    rw [List.getD_eq_getElem?_getD, List.getElem?_map, List.getElem?_eq_getElem hk]
    rfl
  have hlm : (V.map (·.Chron)).length = ts.DataSeries.len := by rw [List.length_map, hl]
  refine ⟨by rw [e1, hl], ⟨_, (hget 0 (by omega)).2, e2.symm⟩, ?_,
    ⟨_, (hget _ (by omega)).2, e3.symm⟩, ?_⟩
  · intro d hd
    obtain ⟨k, hk, hkd⟩ := hmem d hd
    rw [e2, (hget 0 (by omega)).1, ← hkd]
    exact (sorted_ends _ hs k hk).1
  · intro d hd
    obtain ⟨k, hk, hkd⟩ := hmem d hd
    rw [e3, (hget _ (by omega)).1, ← hkd, ← hlm]
    exact (sorted_ends _ hs k hk).2

/-- A trimming pass that returns leaves in Cleaned a summary that agrees with its samples. -/
theorem SliceCleaned_summary (E : Env) (hE : E.Lawful) (min max : ℚ) (cause : String)
    (w : World) (hw : w.wf) (hok : (SliceCleaned E min max cause w).status = Status.ok) :
    SummaryAgrees (SliceCleaned E min max cause w).world.tsc.Cleaned.SumStat
      (SliceCleaned E min max cause w).world.cleaned := by
  have g := sliceScans_grows E hE min max cause w hw
  obtain ⟨_, hcl, _, _, _, hrc, _, _, _⟩ := hw
  have hcl0 := sort_valid E hE measLess w.heap _ _ hcl hcl
  have hcl1 := g.other_valid _ hcl0 (Ne.symm hrc)
  unfold SliceCleaned at hok ⊢
  dsimp only at hok ⊢
  split at hok
  · rename_i hb
    rw [if_pos hb]
    have hcl2 : Slice.valid (sliceScans E min max cause w).2.heap
        { ptr := w.tsc.Cleaned.DataSeries.ptr,
          off := w.tsc.Cleaned.DataSeries.off + (sliceScans E min max cause w).1.count,
          len := w.tsc.Cleaned.DataSeries.len - (sliceScans E min max cause w).2.count + 1 -
            (sliceScans E min max cause w).1.count,
          cap := w.tsc.Cleaned.DataSeries.cap - (sliceScans E min max cause w).1.count } := by
      obtain ⟨c1, c2, c3⟩ := hcl1
      refine ⟨c1, ?_, ?_⟩
      · dsimp only
        omega
      · dsimp only
        omega
    have hst := Complete_status E (sliceScans E min max cause w).2.heap
      { w.tsc.Cleaned with DataSeries :=
        { ptr := w.tsc.Cleaned.DataSeries.ptr,
          off := w.tsc.Cleaned.DataSeries.off + (sliceScans E min max cause w).1.count,
          len := w.tsc.Cleaned.DataSeries.len - (sliceScans E min max cause w).2.count + 1 -
            (sliceScans E min max cause w).1.count,
          cap := w.tsc.Cleaned.DataSeries.cap - (sliceScans E min max cause w).1.count } }
    have hok1 : (Complete E (sliceScans E min max cause w).2.heap
      { w.tsc.Cleaned with DataSeries :=
        { ptr := w.tsc.Cleaned.DataSeries.ptr,
          off := w.tsc.Cleaned.DataSeries.off + (sliceScans E min max cause w).1.count,
          len := w.tsc.Cleaned.DataSeries.len - (sliceScans E min max cause w).2.count + 1 -
            (sliceScans E min max cause w).1.count,
          cap := w.tsc.Cleaned.DataSeries.cap - (sliceScans E min max cause w).1.count } }).1
        = Status.ok := hok
    rw [hok1] at hst
    have hlen : 1 ≤ w.tsc.Cleaned.DataSeries.len - (sliceScans E min max cause w).2.count + 1 -
        (sliceScans E min max cause w).1.count := by
      by_contra hc
      rw [if_pos (by dsimp only; omega)] at hst
      exact absurd hst (by decide)
    exact (Complete_summary E hE _ _ hcl2 hlen).2
  · exact Status.noConfusion hok

/-- C20 (summary cache).  For every lawful library: `Complete` on a series that lies within
its array and has at least one sample returns normally, and the cached summary then has
`Dslen` equal to the number of samples, `Chmin` to the smallest and `Chmax` to the largest
sample timestamp; and after every trimming pass that returns from a well-formed state, the
summary of Cleaned agrees in the same way with the Cleaned samples. -/
theorem C20_summary_agrees (E : Env) (hE : E.Lawful) (h : Heap) (ts : TimeSeries)
    (hv : ts.DataSeries.valid h) (hlen : 1 ≤ ts.DataSeries.len) (op : Op) (w : World)
    (htrim : op.trims = true) (hw : w.wf) (hok : (op.run E w).status = Status.ok) :
    ((Complete E h ts).1 = Status.ok ∧
      SummaryAgrees (Complete E h ts).2.2.SumStat
        ((Complete E h ts).2.2.DataSeries.view (Complete E h ts).2.1)) ∧
    SummaryAgrees (op.run E w).world.tsc.Cleaned.SumStat (op.run E w).world.cleaned := by
  refine ⟨Complete_summary E hE h ts hv hlen, ?_⟩
  cases op with
  | ResetCleanedSeries => exact Bool.noConfusion htrim
  | Downsampling fuel freqq stat => exact Bool.noConfusion htrim
  | DeviceLimitsCleaning now min max => exact SliceCleaned_summary E hE min max _ w hw hok
  | SliceCleaned min max cause => exact SliceCleaned_summary E hE min max cause w hw hok
  | ZscoreCleaning now lvl => exact SliceCleaned_summary E hE _ _ _ _ (sortMeas_wf E hE w hw).1 hok
  | PercCleaning now perc =>
    have hw1 := (sortMeas_wf E hE w hw).1
    change (Timeseries.PercCleaning E now perc w).status = Status.ok at hok
    show SummaryAgrees (Timeseries.PercCleaning E now perc w).world.tsc.Cleaned.SumStat
      (Timeseries.PercCleaning E now perc w).world.cleaned
    unfold Timeseries.PercCleaning at hok ⊢
    dsimp only at hok ⊢
    split at hok
    · exact SliceCleaned_summary E hE _ _ _ _ hw1 hok
    · exact Status.noConfusion hok

/-- C20 at a concrete input: a series of three samples out of order, and the pass
`SliceCleaned` with bounds 0 and 50 on Cleaned values 1, 2 and 100, which returns. -/
theorem C20_summary_agrees_witness :
    goEnv.Lawful ∧
    (mkWorld [] [mkUnit 30 3, mkUnit 10 1, mkUnit 20 2] [] []).tsc.Cleaned.DataSeries.valid
      (mkWorld [] [mkUnit 30 3, mkUnit 10 1, mkUnit 20 2] [] []).heap ∧
    1 ≤ (mkWorld [] [mkUnit 30 3, mkUnit 10 1, mkUnit 20 2] [] []).tsc.Cleaned.DataSeries.len ∧
    (Op.SliceCleaned 0 50 "cause").trims = true ∧
    (mkWorld [] [mkUnit 10 1, mkUnit 20 2, mkUnit 30 100] [] []).wf ∧
    ((Op.SliceCleaned 0 50 "cause").run goEnv
      (mkWorld [] [mkUnit 10 1, mkUnit 20 2, mkUnit 30 100] [] [])).status = Status.ok ∧
    SummaryAgrees
      (Complete goEnv (mkWorld [] [mkUnit 30 3, mkUnit 10 1, mkUnit 20 2] [] []).heap
        (mkWorld [] [mkUnit 30 3, mkUnit 10 1, mkUnit 20 2] [] []).tsc.Cleaned).2.2.SumStat
      ((Complete goEnv (mkWorld [] [mkUnit 30 3, mkUnit 10 1, mkUnit 20 2] [] []).heap
        (mkWorld [] [mkUnit 30 3, mkUnit 10 1, mkUnit 20 2] [] []).tsc.Cleaned).2.2.DataSeries.view
        (Complete goEnv (mkWorld [] [mkUnit 30 3, mkUnit 10 1, mkUnit 20 2] [] []).heap
          (mkWorld [] [mkUnit 30 3, mkUnit 10 1, mkUnit 20 2] [] []).tsc.Cleaned).2.1) ∧
    SummaryAgrees
      ((Op.SliceCleaned 0 50 "cause").run goEnv
        (mkWorld [] [mkUnit 10 1, mkUnit 20 2, mkUnit 30 100] [] [])).world.tsc.Cleaned.SumStat
      ((Op.SliceCleaned 0 50 "cause").run goEnv
        (mkWorld [] [mkUnit 10 1, mkUnit 20 2, mkUnit 30 100] [] [])).world.cleaned :=
  ⟨goEnv_lawful, by decide, by decide, rfl, mkWorld_wf _ _ _ _, by decide!,
    (C20_summary_agrees goEnv goEnv_lawful _ _ (by decide) (by decide)
      (Op.SliceCleaned 0 50 "cause")
      (mkWorld [] [mkUnit 10 1, mkUnit 20 2, mkUnit 30 100] [] []) rfl (mkWorld_wf _ _ _ _)
      (by decide!)).1.2,
    (C20_summary_agrees goEnv goEnv_lawful
      (mkWorld [] [mkUnit 30 3, mkUnit 10 1, mkUnit 20 2] [] []).heap
      (mkWorld [] [mkUnit 30 3, mkUnit 10 1, mkUnit 20 2] [] []).tsc.Cleaned
      (by decide) (by decide)
      (Op.SliceCleaned 0 50 "cause")
      (mkWorld [] [mkUnit 10 1, mkUnit 20 2, mkUnit 30 100] [] []) rfl (mkWorld_wf _ _ _ _)
      (by decide!)).2⟩

/-! ## Sorting again -/

/-- Two lists with the same timestamps position by position, drawn from a list without
repeated timestamp, are equal. -/
theorem eq_of_map_chron_eq (V X Y : List DataUnit) (hV : (V.map (·.Chron)).Nodup)
    (hX : ∀ d ∈ X, d ∈ V) (hY : ∀ d ∈ Y, d ∈ V)
    (hmap : X.map (·.Chron) = Y.map (·.Chron)) : X = Y := by
  have hlen : X.length = Y.length := by
    simpa using congrArg List.length hmap
  apply List.ext_getElem hlen
  intro n h1 h2
  have hc : (X.map (·.Chron))[n]? = (Y.map (·.Chron))[n]? := by rw [hmap]
  rw [List.getElem?_map, List.getElem?_map, List.getElem?_eq_getElem h1,
    List.getElem?_eq_getElem h2] at hc
  simp only [Option.map_some', Option.some.injEq] at hc
  exact List.inj_on_of_nodup_map hV (hX _ (List.getElem_mem _)) (hY _ (List.getElem_mem _)) hc

/-- C16 as stated fails on series where several samples share a timestamp, under both
algorithms of `sort.Slice`.  Up to Go 1.18, on eight samples (the first at instant 1, the
others at instant 0; the values 0 to 7 name the samples): one ascending sort leaves the
values in the order 6, 1, 2, 3, 4, 5, 7, 0 and the three sorts in the order
7, 6, 2, 3, 4, 5, 1, 0.  From Go 1.19 on, on thirteen such samples: one ascending sort
gives 6, 1, 2, 3, 4, 5, 7, 8, 9, 10, 11, 12, 0 and the three sorts
6, 7, 2, 3, 4, 5, 8, 9, 10, 11, 12, 1, 0. -/
theorem C16_resort_moves_equal_timestamps :
    (sortedAsc go118Env (mkWorld [] eightSamples [] []).heap
      (mkWorld [] eightSamples [] []).tsc.Cleaned).map (·.Meas) = [6, 1, 2, 3, 4, 5, 7, 0] ∧
    (sortedAscDescAsc go118Env (mkWorld [] eightSamples [] []).heap
      (mkWorld [] eightSamples [] []).tsc.Cleaned).map (·.Meas) = [7, 6, 2, 3, 4, 5, 1, 0] ∧
    (sortedAsc go119Env (mkWorld [] thirteenSamples [] []).heap
      (mkWorld [] thirteenSamples [] []).tsc.Cleaned).map (·.Meas)
      = [6, 1, 2, 3, 4, 5, 7, 8, 9, 10, 11, 12, 0] ∧
    (sortedAscDescAsc go119Env (mkWorld [] thirteenSamples [] []).heap
      (mkWorld [] thirteenSamples [] []).tsc.Cleaned).map (·.Meas)
      = [6, 7, 2, 3, 4, 5, 8, 9, 10, 11, 12, 1, 0] := by
  decide!

/-- C16 amended.  For every lawful library and every series that lies within its array:
the samples after `SortChronAsc`, and after `SortChronAsc`, `SortChronDesc`, `SortChronAsc`,
are both a permutation of the input in non-decreasing timestamp order, with the same
timestamps position by position; and when no two samples share a timestamp, the two orders
are exactly the same. -/
theorem C16_resort (E : Env) (hE : E.Lawful) (h : Heap) (ts : TimeSeries)
    (hv : ts.DataSeries.valid h) :
    (sortedAsc E h ts).Perm (ts.DataSeries.view h) ∧
    ((sortedAsc E h ts).map (·.Chron)).Pairwise (· ≤ ·) ∧
    (sortedAscDescAsc E h ts).Perm (ts.DataSeries.view h) ∧
    ((sortedAscDescAsc E h ts).map (·.Chron)).Pairwise (· ≤ ·) ∧
    (sortedAscDescAsc E h ts).map (·.Chron) = (sortedAsc E h ts).map (·.Chron) ∧
    (((ts.DataSeries.view h).map (·.Chron)).Nodup →
      sortedAscDescAsc E h ts = sortedAsc E h ts) := by
  have hv1 : ts.DataSeries.valid (SortChronAsc E h ts) := sort_valid E hE chronLess h _ _ hv hv
  have hv2 : ts.DataSeries.valid (SortChronDesc E (SortChronAsc E h ts) ts) :=
    sort_valid E hE chronAfter _ _ _ hv1 hv1
  have eA : sortedAsc E h ts = E.sort chronLess (ts.DataSeries.view h) :=
    sort_view E hE chronLess h _ hv
  have eD : ts.DataSeries.view (SortChronDesc E (SortChronAsc E h ts) ts) =
      E.sort chronAfter (sortedAsc E h ts) := sort_view E hE chronAfter _ _ hv1
  have eADA : sortedAscDescAsc E h ts =
      E.sort chronLess (E.sort chronAfter (sortedAsc E h ts)) := by
    unfold sortedAscDescAsc
    rw [← eD]
    exact sort_view E hE chronLess _ _ hv2
  have pA : (sortedAsc E h ts).Perm (ts.DataSeries.view h) := by
    rw [eA]; exact hE.sort_perm _ _
  have pADA : (sortedAscDescAsc E h ts).Perm (ts.DataSeries.view h) := by
    rw [eADA]
    exact ((hE.sort_perm _ _).trans (hE.sort_perm _ _)).trans pA
  have sA : ((sortedAsc E h ts).map (·.Chron)).Pairwise (· ≤ ·) := by
    rw [eA]; exact sorted_chron E hE _
  have sADA : ((sortedAscDescAsc E h ts).map (·.Chron)).Pairwise (· ≤ ·) := by
    rw [eADA]; exact sorted_chron E hE _
  have hmap : (sortedAscDescAsc E h ts).map (·.Chron) = (sortedAsc E h ts).map (·.Chron) :=
    List.eq_of_perm_of_sorted ((pADA.trans pA.symm).map _) sADA sA
  exact ⟨pA, sA, pADA, sADA, hmap, fun hnd =>
    eq_of_map_chron_eq _ _ _ hnd (fun d hd => pADA.subset hd) (fun d hd => pA.subset hd) hmap⟩

/-- C16 amended, at a concrete series of three samples with distinct timestamps, out of
order. -/
theorem C16_resort_witness :
    goEnv.Lawful ∧
    (mkWorld [] [mkUnit 30 3, mkUnit 10 1, mkUnit 20 2] [] []).tsc.Cleaned.DataSeries.valid
      (mkWorld [] [mkUnit 30 3, mkUnit 10 1, mkUnit 20 2] [] []).heap ∧
    (((mkWorld [] [mkUnit 30 3, mkUnit 10 1, mkUnit 20 2] [] []).tsc.Cleaned.DataSeries.view
      (mkWorld [] [mkUnit 30 3, mkUnit 10 1, mkUnit 20 2] [] []).heap).map (·.Chron)).Nodup ∧
    sortedAscDescAsc goEnv (mkWorld [] [mkUnit 30 3, mkUnit 10 1, mkUnit 20 2] [] []).heap
      (mkWorld [] [mkUnit 30 3, mkUnit 10 1, mkUnit 20 2] [] []).tsc.Cleaned =
    sortedAsc goEnv (mkWorld [] [mkUnit 30 3, mkUnit 10 1, mkUnit 20 2] [] []).heap
      (mkWorld [] [mkUnit 30 3, mkUnit 10 1, mkUnit 20 2] [] []).tsc.Cleaned :=
  ⟨goEnv_lawful, by decide, by decide,
    (C16_resort goEnv goEnv_lawful _ _ (by decide)).2.2.2.2.2 (by decide)⟩

/-! ## A second resampling

The timestamps of the Resampled samples depend on the timestamps of the sorted Cleaned
samples only; their values depend on the order of the samples that share a timestamp. -/

end Timeseries
